import Mathlib

/-!
Verification development for the guest GPU memory manager
(`src/video_core/memory_manager.cpp`).

Modelling conventions:
* Addresses, sizes and host pointers are `Nat`; a null host pointer is `0`
  (the code tests pointers with `if (page_pointer)` and backing addresses
  with `if (cpu_addr)`, i.e. against zero).
* `addr >> page_bits` is written `addr / page_size` and
  `addr & page_mask` is written `addr % page_size`; the two agree because
  `page_size` is a power of two.
* `ASSERT`, `ASSERT_MSG` and `UNREACHABLE` abort the process
  (modelled from the spec: "Policy: abort the process"; the assert header
  is not among the sources), so a function that can hit one returns
  `Option` and yields `none` there.
* `std::map` iterators become indices into the ordered association list
  `vma_map`; `vma_map.end()` is the index `m.length`.
* C++ while-loops are written with explicit fuel; every loop consumes at
  least one unit of its input per iteration, and the callers pass a fuel
  budget that is at least the iteration count, so the fuel-exhaustion
  branch is unreachable from the modelled entry points.
-/

set_option maxRecDepth 10000
set_option maxHeartbeats 2000000

namespace Tegra

/-- Modelled from the spec: address-space constants from the header
`video_core/memory_manager.h`, which is not among the sources. The spec
fixes pages of `2^12` bytes, a 40-bit space and `address_space_base = 0`. -/
def page_bits : Nat := 12

/-- Modelled from the spec: `page_size = 1 << page_bits`. -/
def page_size : Nat := 2 ^ page_bits

/-- Modelled from the spec: `W = address_space_width` (40). -/
def address_space_width : Nat := 40

/-- Modelled from the spec: `address_space_end = 1 << address_space_width`. -/
def address_space_end : Nat := 2 ^ address_space_width

/-- Modelled from the spec: allocations search from address 0. -/
def address_space_base : Nat := 0

/-- Modelled from the spec: number of slots of the flat page table
(`page_table.pointers.size()` after `Resize(address_space_width)`). -/
def num_pages : Nat := 2 ^ (address_space_width - page_bits)

/-- Modelled from the spec: `Common::AlignUp(v, a)` from the missing
`common/alignment.h`; rounds `v` up to the next multiple of `a`. -/
def alignUp (v a : Nat) : Nat := (v + a - 1) / a * a

/-- Modelled from the spec: `Common::PageType`; the GPU page table only
uses the `Unmapped` and `Memory` tags. -/
inductive PageType where
  | Unmapped
  | Memory
deriving DecidableEq, Repr

/-- The three states of a virtual memory area. -/
inductive VMAType where
  | Unmapped
  | Allocated
  | Mapped
deriving DecidableEq, Repr

/-- Modelled from the spec: `struct VirtualMemoryArea` from the missing
header, fields as in the spec data model (the C++ field `type` is named
`ty` here). Default field values are the zero-initialised C++ defaults. -/
structure VirtualMemoryArea where
  base : Nat
  size : Nat
  ty : VMAType := .Unmapped
  offset : Nat := 0
  backing_memory : Nat := 0
  backing_addr : Nat := 0
deriving DecidableEq, Repr

/-- Modelled from the spec: the flat page table, three per-page arrays
(host pointer, page tag, backing guest-CPU address). The arrays are
modelled as total functions from the page index; all in-source accesses
stay below `num_pages`. -/
structure PageTable where
  pointers : Nat → Nat
  attributes : Nat → PageType
  backing_addr : Nat → Nat

/-- The manager state plus the two external collaborators the claims
need: `hostMem` is the byte store addressed by host pointers and `busPtr`
is the memory-bus lookup (`system.Memory().GetPointer`). -/
structure MMState where
  vma_map : List VirtualMemoryArea
  page_table : PageTable
  hostMem : Nat → Nat
  busPtr : Nat → Nat

/-- `MemoryManager::IsAddressValid`. -/
def IsAddressValid (addr : Nat) : Bool := addr / page_size < num_pages

/-- `MemoryManager::GpuToCpuAddress`. -/
def GpuToCpuAddress (st : MMState) (addr : Nat) : Option Nat :=
  if ¬ IsAddressValid addr then none
  else
    let cpu_addr := st.page_table.backing_addr (addr / page_size)
    if cpu_addr ≠ 0 then some (cpu_addr + addr % page_size) else none

/-- The `n` bytes of host memory starting at `p` (a `memcpy` source). -/
def readBytes (mem : Nat → Nat) : Nat → Nat → List Nat
  | _, 0 => []
  | p, n + 1 => mem p :: readBytes mem (p + 1) n

/-- Store one byte at host address `p`. -/
def writeByte (mem : Nat → Nat) (p b : Nat) : Nat → Nat :=
  fun a => if a = p then b else mem a

/-- Store a list of bytes starting at host address `p` (a `memcpy`
destination). -/
def writeBytes (mem : Nat → Nat) (p : Nat) : List Nat → (Nat → Nat)
  | [] => mem
  | b :: bs => writeBytes (writeByte mem p b) (p + 1) bs

/-- Little-endian bytes of a `w`-byte integer value. -/
def toLEBytes (w d : Nat) : List Nat := (List.range w).map fun k => d / 256 ^ k % 256

/-- Integer value of a little-endian byte list. -/
def ofLEBytes (bs : List Nat) : Nat := bs.foldr (fun b acc => b + 256 * acc) 0

/-- `MemoryManager::Read<T>`; `w` is `sizeof T`. `none` is the
`ASSERT_MSG(false, "Mapped memory page without a pointer")` abort. -/
def Read (st : MMState) (w addr : Nat) : Option Nat :=
  if ¬ IsAddressValid addr then some 0
  else
    let page_pointer := st.page_table.pointers (addr / page_size)
    if page_pointer ≠ 0 then
      some (ofLEBytes (readBytes st.hostMem (page_pointer + addr % page_size) w))
    else
      match st.page_table.attributes (addr / page_size) with
      | .Unmapped => some 0
      | .Memory => none

/-- `MemoryManager::Write<T>`; `w` is `sizeof T`. -/
def Write (st : MMState) (w addr data : Nat) : Option MMState :=
  if ¬ IsAddressValid addr then some st
  else
    let page_pointer := st.page_table.pointers (addr / page_size)
    if page_pointer ≠ 0 then
      some { st with
        hostMem := writeBytes st.hostMem (page_pointer + addr % page_size) (toLEBytes w data) }
    else
      match st.page_table.attributes (addr / page_size) with
      | .Unmapped => some st
      | .Memory => none

/-- `MemoryManager::GetPointer`; returns the null pointer `0` on failure. -/
def GetPointer (st : MMState) (addr : Nat) : Nat :=
  if ¬ IsAddressValid addr then 0
  else
    let page_pointer := st.page_table.pointers (addr / page_size)
    if page_pointer ≠ 0 then page_pointer + addr % page_size else 0

/-- `MemoryManager::MapPages`; `base` and `size` are in pages, `memory = 0`
is the `nullptr` branch. `none` is the out-of-range `ASSERT_MSG`. -/
def MapPages (pt : PageTable) (base size memory : Nat) (ty : PageType) (backing : Nat) :
    Option PageTable :=
  if base + size ≤ num_pages then
    some
      { pointers := fun p =>
          if base ≤ p ∧ p < base + size then
            (if memory = 0 then 0 else memory + (p - base) * page_size)
          else pt.pointers p
      , attributes := fun p =>
          if base ≤ p ∧ p < base + size then ty else pt.attributes p
      , backing_addr := fun p =>
          if base ≤ p ∧ p < base + size then
            (if memory = 0 then backing else backing + (p - base) * page_size)
          else pt.backing_addr p }
  else none

/-- `MemoryManager::MapMemoryRegion`; `none` is an alignment assert. -/
def MapMemoryRegion (pt : PageTable) (base size target backing : Nat) : Option PageTable :=
  if size % page_size = 0 ∧ base % page_size = 0 then
    MapPages pt (base / page_size) (size / page_size) target .Memory backing
  else none

/-- `MemoryManager::UnmapRegion`; `none` is an alignment assert. -/
def UnmapRegion (pt : PageTable) (base size : Nat) : Option PageTable :=
  if size % page_size = 0 ∧ base % page_size = 0 then
    MapPages pt (base / page_size) (size / page_size) 0 .Unmapped 0
  else none

/-- `MemoryManager::UpdatePageTableForVMA`. -/
def UpdatePageTableForVMA (pt : PageTable) (vma : VirtualMemoryArea) : Option PageTable :=
  match vma.ty with
  | .Unmapped => UnmapRegion pt vma.base vma.size
  | .Allocated => MapMemoryRegion pt vma.base vma.size 0 vma.backing_addr
  | .Mapped => MapMemoryRegion pt vma.base vma.size vma.backing_memory vma.backing_addr

/-- `VirtualMemoryArea::CanBeMergedWith`; `none` is the
`ASSERT(base + size == next.base)` abort. -/
def CanBeMergedWith (a b : VirtualMemoryArea) : Option Bool :=
  if a.base + a.size ≠ b.base then none
  else if a.ty ≠ b.ty then some false
  else if a.ty = .Allocated ∧ a.offset + a.size ≠ b.offset then some false
  else if a.ty = .Mapped ∧ a.backing_memory + a.size ≠ b.backing_memory then some false
  else some true

/-- `MemoryManager::FindVMA`, as the index of `std::prev(upper_bound target)`
in the base-ordered list; `m.length` is the `end()` sentinel. -/
def FindVMA (m : List VirtualMemoryArea) (target : Nat) : Nat :=
  if target ≥ address_space_end then m.length
  else m.countP (fun v => decide (v.base ≤ target)) - 1

/-- `vma_map.emplace_hint(next(it), key, v)`: insert at position `i`. -/
def insertAt (m : List VirtualMemoryArea) (i : Nat) (v : VirtualMemoryArea) :
    List VirtualMemoryArea :=
  m.take i ++ v :: m.drop i

/-- The merge of two adjacent VMAs: the left one absorbs the sizes. -/
def mergedVMA (a b : VirtualMemoryArea) : VirtualMemoryArea :=
  { a with size := a.size + b.size }

/-- The right half produced by `SplitVMA`: base moved up by `off`, size
shrunk, and `offset` (for `Allocated`) or `backing_memory` (for `Mapped`)
advanced accordingly. -/
def splitRight (old_vma : VirtualMemoryArea) (off : Nat) : VirtualMemoryArea :=
  let moved := { old_vma with base := old_vma.base + off, size := old_vma.size - off }
  match old_vma.ty with
  | .Unmapped => moved
  | .Allocated => { moved with offset := moved.offset + off }
  | .Mapped => { moved with backing_memory := moved.backing_memory + off }

/-- `MemoryManager::SplitVMA`; returns the updated map and the index of the
inserted right half (the `emplace_hint` result). `none` is one of the
three asserts (no-op split, or the split halves not merge-compatible). -/
def SplitVMA (m : List VirtualMemoryArea) (i off : Nat) :
    Option (List VirtualMemoryArea × Nat) :=
  match m[i]? with
  | none => none
  | some old_vma =>
    if off < old_vma.size ∧ 0 < off then
      if CanBeMergedWith { old_vma with size := off } (splitRight old_vma off) = some true then
        some (insertAt (m.set i { old_vma with size := off }) (i + 1) (splitRight old_vma off),
          i + 1)
      else none
    else none

/-- The first half of `MemoryManager::MergeAdjacent`: absorb the next
neighbour when mergeable. -/
def mergeNext (m : List VirtualMemoryArea) (i : Nat) : Option (List VirtualMemoryArea) :=
  match m[i]?, m[i + 1]? with
  | some a, some b =>
    match CanBeMergedWith a b with
    | none => none
    | some true => some ((m.set i (mergedVMA a b)).eraseIdx (i + 1))
    | some false => some m
  | _, _ => some m

/-- The second half of `MemoryManager::MergeAdjacent`: let the previous
neighbour absorb the (possibly enlarged) entry. -/
def mergePrev (m1 : List VirtualMemoryArea) (i : Nat) : Option (List VirtualMemoryArea × Nat) :=
  if i = 0 then some (m1, i)
  else
    match m1[i - 1]?, m1[i]? with
    | some a, some b =>
      match CanBeMergedWith a b with
      | none => none
      | some true => some ((m1.set (i - 1) (mergedVMA a b)).eraseIdx i, i - 1)
      | some false => some (m1, i)
    | _, _ => some (m1, i)

/-- `MemoryManager::MergeAdjacent`: absorb the next neighbour if mergeable,
then let the previous neighbour absorb the (possibly enlarged) entry. -/
def MergeAdjacent (m : List VirtualMemoryArea) (i : Nat) :
    Option (List VirtualMemoryArea × Nat) :=
  match mergeNext m i with
  | none => none
  | some m1 => mergePrev m1 i

/-- `MemoryManager::Allocate(VMAIter)`: turn the entry `Allocated`, clear
its backing fields, project it into the page table, merge neighbours. -/
def Allocate (m : List VirtualMemoryArea) (pt : PageTable) (i : Nat) :
    Option (List VirtualMemoryArea × PageTable × Nat) :=
  match m[i]? with
  | none => none
  | some vma =>
    let vma2 := { vma with ty := .Allocated, backing_addr := 0, backing_memory := 0 }
    match UpdatePageTableForVMA pt vma2 with
    | none => none
    | some pt2 =>
      match MergeAdjacent (m.set i vma2) i with
      | none => none
      | some (m2, i2) => some (m2, pt2, i2)

/-- `MemoryManager::CarveVMA`. `none` covers the alignment asserts, the
out-of-range default-iterator return and the region-size assert. When the
enclosing VMA is already `Mapped` it is returned unchanged. -/
def CarveVMA (m : List VirtualMemoryArea) (base size : Nat) :
    Option (List VirtualMemoryArea × Nat) :=
  if size % page_size = 0 ∧ base % page_size = 0 then
    let i := FindVMA m base
    if i = m.length then none
    else
      match m[i]? with
      | none => none
      | some vma =>
        if vma.ty = .Mapped then some (m, i)
        else
          let start_in_vma := base - vma.base
          let end_in_vma := start_in_vma + size
          if end_in_vma ≤ vma.size then
            match (if end_in_vma < vma.size then (SplitVMA m i end_in_vma).map Prod.fst
                   else some m) with
            | none => none
            | some m1 =>
              if start_in_vma ≠ 0 then SplitVMA m1 i start_in_vma
              else some (m1, i)
          else none
  else none

/-- `MemoryManager::AllocateMemory`. -/
def AllocateMemory (m : List VirtualMemoryArea) (pt : PageTable) (target offset size : Nat) :
    Option (List VirtualMemoryArea × PageTable × Nat) :=
  match CarveVMA m target size with
  | none => none
  | some (m1, i) =>
    match m1[i]? with
    | none => none
    | some vma =>
      if vma.size = size then Allocate (m1.set i { vma with offset := offset }) pt i
      else none

/-- `MemoryManager::MapBackingMemory`. -/
def MapBackingMemory (m : List VirtualMemoryArea) (pt : PageTable)
    (target memory size backing : Nat) :
    Option (List VirtualMemoryArea × PageTable × Nat) :=
  match CarveVMA m target size with
  | none => none
  | some (m1, i) =>
    match m1[i]? with
    | none => none
    | some vma =>
      if vma.size = size then
        let vma2 := { vma with ty := .Mapped, backing_memory := memory, backing_addr := backing }
        match UpdatePageTableForVMA pt vma2 with
        | none => none
        | some pt2 =>
          match MergeAdjacent (m1.set i vma2) i with
          | none => none
          | some (m2, i2) => some (m2, pt2, i2)
      else none

/-- `MemoryManager::CarveVMARange`. The `return {}` cases (sentinel
iterator, whose later dereference in `UnmapRange` is undefined) and the
asserts are all `none`. -/
def CarveVMARange (m : List VirtualMemoryArea) (target size : Nat) :
    Option (List VirtualMemoryArea × Nat) :=
  if size % page_size = 0 ∧ target % page_size = 0 ∧ 0 < size then
    let target_end := target + size
    let ib := FindVMA m target
    if ib = m.length then none
    else
      let iEnd := m.countP (fun v => decide (v.base < target_end))
      if ((m.drop ib).take (iEnd - ib)).any (fun v => v.ty == VMAType.Unmapped) then none
      else
        match m[ib]? with
        | none => none
        | some bv =>
          match (if target ≠ bv.base then SplitVMA m ib (target - bv.base)
                 else some (m, ib)) with
          | none => none
          | some (m1, ib1) =>
            let ie := FindVMA m1 target_end
            if ie = m1.length then some (m1, ib1)
            else
              match m1[ie]? with
              | none => none
              | some ev =>
                if target_end ≠ ev.base then
                  match SplitVMA m1 ie (target_end - ev.base) with
                  | none => none
                  | some (m2, _) => some (m2, ib1)
                else some (m1, ib1)
  else none

/-- The while-loop of `MemoryManager::UnmapRange`
(`vma = std::next(Allocate(vma))` until the base reaches the end of the
range). Each iteration strictly decreases `m.length - i`, so the
`m.length + 1` fuel passed by `UnmapRange` is never exhausted. -/
def unmapLoop (fuel : Nat) (m : List VirtualMemoryArea) (pt : PageTable)
    (i target_end : Nat) : Option (List VirtualMemoryArea × PageTable) :=
  match fuel with
  | 0 => none
  | fuel + 1 =>
    match m[i]? with
    | none => some (m, pt)
    | some vma =>
      if vma.base < target_end then
        match Allocate m pt i with
        | none => none
        | some (m2, pt2, i2) => unmapLoop fuel m2 pt2 (i2 + 1) target_end
      else some (m, pt)

/-- `MemoryManager::UnmapRange`; the trailing `none` cases are the final
`ASSERT(FindVMA(target)->second.size >= size)`. -/
def UnmapRange (m : List VirtualMemoryArea) (pt : PageTable) (target size : Nat) :
    Option (List VirtualMemoryArea × PageTable) :=
  match CarveVMARange m target size with
  | none => none
  | some (m1, i) =>
    match unmapLoop (m1.length + 1) m1 pt i (target + size) with
    | none => none
    | some (m2, pt2) =>
      match m2[FindVMA m2 target]? with
      | none => none
      | some vma => if size ≤ vma.size then some (m2, pt2) else none

/-- `MemoryManager::FindFreeRegion`: first `Unmapped` VMA in base order
whose end lies past `region_start` and covers `region_start + size`;
returns `0` (a default-constructed `GPUVAddr`) when none exists. -/
def FindFreeRegion (m : List VirtualMemoryArea) (region_start size : Nat) : Nat :=
  match m.find? (fun v =>
      v.ty == VMAType.Unmapped
        && decide (region_start < v.base + v.size)
        && decide (region_start + size ≤ v.base + v.size)) with
  | some v => max region_start v.base
  | none => 0

/-- `MemoryManager::AllocateSpace(size, align)` (`align` is unused by the
C++ body). Note that the result of `FindFreeRegion` is passed to
`AllocateMemory` unconditionally, even when it is the failure sentinel 0. -/
def AllocateSpace (st : MMState) (size : Nat) : Option (Nat × MMState) :=
  let aligned_size := alignUp size page_size
  let gpu_addr := FindFreeRegion st.vma_map address_space_base aligned_size
  match AllocateMemory st.vma_map st.page_table gpu_addr 0 aligned_size with
  | none => none
  | some (m, pt, _) => some (gpu_addr, { st with vma_map := m, page_table := pt })

/-- `MemoryManager::AllocateSpace(gpu_addr, size, align)`. -/
def AllocateSpaceAt (st : MMState) (gpu_addr size : Nat) : Option (Nat × MMState) :=
  let aligned_size := alignUp size page_size
  match AllocateMemory st.vma_map st.page_table gpu_addr 0 aligned_size with
  | none => none
  | some (m, pt, _) => some (gpu_addr, { st with vma_map := m, page_table := pt })

/-- `MemoryManager::MapBufferEx(cpu_addr, size)`; the kernel
`SetMemoryAttribute` call is external and its success is asserted. -/
def MapBufferEx (st : MMState) (cpu_addr size : Nat) : Option (Nat × MMState) :=
  let aligned_size := alignUp size page_size
  let gpu_addr := FindFreeRegion st.vma_map address_space_base aligned_size
  match MapBackingMemory st.vma_map st.page_table gpu_addr (st.busPtr cpu_addr)
      aligned_size cpu_addr with
  | none => none
  | some (m, pt, _) => some (gpu_addr, { st with vma_map := m, page_table := pt })

/-- `MemoryManager::MapBufferEx(cpu_addr, gpu_addr, size)`; the leading
`none` is the `ASSERT((gpu_addr & page_mask) == 0)`. -/
def MapBufferExAt (st : MMState) (cpu_addr gpu_addr size : Nat) : Option (Nat × MMState) :=
  if gpu_addr % page_size = 0 then
    let aligned_size := alignUp size page_size
    match MapBackingMemory st.vma_map st.page_table gpu_addr (st.busPtr cpu_addr)
        aligned_size cpu_addr with
    | none => none
    | some (m, pt, _) => some (gpu_addr, { st with vma_map := m, page_table := pt })
  else none

/-- `MemoryManager::UnmapBuffer`; the flush-and-invalidate callout and the
kernel attribute update are external, and `ASSERT(cpu_addr)` is the second
guard. -/
def UnmapBuffer (st : MMState) (gpu_addr size : Nat) : Option (Nat × MMState) :=
  if gpu_addr % page_size = 0 then
    let aligned_size := alignUp size page_size
    match GpuToCpuAddress st gpu_addr with
    | none => none
    | some _cpu_addr =>
      match UnmapRange st.vma_map st.page_table gpu_addr aligned_size with
      | none => none
      | some (m, pt) => some (gpu_addr, { st with vma_map := m, page_table := pt })
  else none

/-- A rasterizer cache callout observed during block I/O. -/
inductive REvent where
  | flush (addr n : Nat)
  | invalidate (addr n : Nat)
deriving DecidableEq, Repr

/-- `ToCacheAddr`: a deterministic projection of a host pointer; only
equality matters, so it is the identity here. -/
def ToCacheAddr (p : Nat) : Nat := p

/-- The page-wise loop of `MemoryManager::ReadBlock`; the returned list is
the destination buffer and the event list records the per-page
`rasterizer.FlushRegion` callouts. `none` is the `UNREACHABLE()` on a page
whose attribute is not `Memory`. -/
def readBlockLoop (pt : PageTable) (mem : Nat → Nat)
    (fuel page_index page_offset remaining : Nat) : Option (List Nat × List REvent) :=
  match fuel with
  | 0 => none
  | fuel + 1 =>
    if remaining = 0 then some ([], [])
    else
      let copy_amount := min (page_size - page_offset) remaining
      match pt.attributes page_index with
      | .Memory =>
        let src_ptr := pt.pointers page_index + page_offset
        match readBlockLoop pt mem fuel (page_index + 1) 0 (remaining - copy_amount) with
        | none => none
        | some (bytes, evs) =>
          some (readBytes mem src_ptr copy_amount ++ bytes,
                REvent.flush (ToCacheAddr src_ptr) copy_amount :: evs)
      | _ => none

/-- `MemoryManager::ReadBlock`. -/
def ReadBlock (pt : PageTable) (mem : Nat → Nat) (src_addr size : Nat) :
    Option (List Nat × List REvent) :=
  readBlockLoop pt mem (size + 1) (src_addr / page_size) (src_addr % page_size) size

/-- The page-wise loop of `MemoryManager::ReadBlockUnsafe`: pages with a
null pointer slot zero-fill the destination, and no rasterizer callout is
ever emitted (the event list stays empty by construction, mirroring the
absence of any rasterizer call in the source). -/
def readBlockUnsafeLoop (pt : PageTable) (mem : Nat → Nat)
    (fuel page_index page_offset remaining : Nat) : List Nat × List REvent :=
  match fuel with
  | 0 => ([], [])
  | fuel + 1 =>
    if remaining = 0 then ([], [])
    else
      let copy_amount := min (page_size - page_offset) remaining
      let page_pointer := pt.pointers page_index
      let chunk :=
        if page_pointer ≠ 0 then readBytes mem (page_pointer + page_offset) copy_amount
        else List.replicate copy_amount 0
      let rest := readBlockUnsafeLoop pt mem fuel (page_index + 1) 0 (remaining - copy_amount)
      (chunk ++ rest.1, rest.2)

/-- `MemoryManager::ReadBlockUnsafe`. -/
def ReadBlockUnsafe (pt : PageTable) (mem : Nat → Nat) (src_addr size : Nat) :
    List Nat × List REvent :=
  readBlockUnsafeLoop pt mem (size + 1) (src_addr / page_size) (src_addr % page_size) size

/-- The page-wise loop of `MemoryManager::WriteBlock`; the source buffer is
the byte list, the result is the updated host memory plus the per-page
`rasterizer.InvalidateRegion` callouts. `none` is the `UNREACHABLE()`. -/
def writeBlockLoop (pt : PageTable) (mem : Nat → Nat)
    (fuel page_index page_offset : Nat) (buf : List Nat) :
    Option ((Nat → Nat) × List REvent) :=
  match fuel with
  | 0 => none
  | fuel + 1 =>
    if buf.length = 0 then some (mem, [])
    else
      let copy_amount := min (page_size - page_offset) buf.length
      match pt.attributes page_index with
      | .Memory =>
        let dest_ptr := pt.pointers page_index + page_offset
        let mem2 := writeBytes mem dest_ptr (buf.take copy_amount)
        match writeBlockLoop pt mem2 fuel (page_index + 1) 0 (buf.drop copy_amount) with
        | none => none
        | some (mem3, evs) =>
          some (mem3, REvent.invalidate (ToCacheAddr dest_ptr) copy_amount :: evs)
      | _ => none

/-- `MemoryManager::WriteBlock`. -/
def WriteBlock (pt : PageTable) (mem : Nat → Nat) (dest_addr : Nat) (buf : List Nat) :
    Option ((Nat → Nat) × List REvent) :=
  writeBlockLoop pt mem (buf.length + 1) (dest_addr / page_size) (dest_addr % page_size) buf

/-- The public mutating operations of claim C7. -/
inductive MMOp where
  | allocateSpace (size : Nat)
  | allocateSpaceAt (gpu_addr size : Nat)
  | mapBufferEx (cpu_addr size : Nat)
  | mapBufferExAt (cpu_addr gpu_addr size : Nat)
  | unmapBuffer (gpu_addr size : Nat)
deriving DecidableEq, Repr

/-- Apply one public operation; `none` is a process abort. -/
def applyOp (st : MMState) : MMOp → Option MMState
  | .allocateSpace size => (AllocateSpace st size).map Prod.snd
  | .allocateSpaceAt gpu_addr size => (AllocateSpaceAt st gpu_addr size).map Prod.snd
  | .mapBufferEx cpu_addr size => (MapBufferEx st cpu_addr size).map Prod.snd
  | .mapBufferExAt cpu_addr gpu_addr size => (MapBufferExAt st cpu_addr gpu_addr size).map Prod.snd
  | .unmapBuffer gpu_addr size => (UnmapBuffer st gpu_addr size).map Prod.snd

/-- Run a sequence of public operations. -/
def runOps (st : MMState) : List MMOp → Option MMState
  | [] => some st
  | op :: ops =>
    match applyOp st op with
    | none => none
    | some st2 => runOps st2 ops

/-- The initial VMA of the constructor: one free region over the space. -/
def initVMA : VirtualMemoryArea := { base := 0, size := address_space_end }

/-- The page table after construction: the constructor null-fills the
arrays and then projects `initVMA`, which rewrites pages `< num_pages`
with the same null values, so the result is the all-null table. -/
def initPageTable : PageTable :=
  { pointers := fun _ => 0, attributes := fun _ => .Unmapped, backing_addr := fun _ => 0 }

/-- The freshly constructed manager (plus the external collaborators). -/
def initState (hostMem busPtr : Nat → Nat) : MMState :=
  { vma_map := [initVMA], page_table := initPageTable, hostMem := hostMem, busPtr := busPtr }

/-- A concrete manager used by counterexamples and witnesses: zeroed host
memory and a memory bus that lends out non-null host pointers. -/
def probe : MMState := initState (fun _ => 0) (fun c => c + 0x1000000)

example : alignUp 0x3000 page_size = 0x3000 := by decide
example : alignUp 0x2fff page_size = 0x3000 := by decide
example : alignUp 0 page_size = 0 := by decide
example : FindVMA [{ base := 0, size := 0x1000 }, { base := 0x1000, size := 0x2000 }] 0x1800 = 1 := by decide
example : FindVMA [{ base := 0, size := 0x1000 }] (2 ^ 40) = 1 := by decide

/-! ### Claim C1 -/

/-- Claim C1 (counterexample): the claim says `UpdatePageTableForVMA`
projects an `Allocated` VMA as `attribute = Unmapped`. On the code the
`Allocated` case calls `MapMemoryRegion(base, size, nullptr, backing)`,
which tags every covered page `Memory` (with a null pointer): projecting
the VMA `[0, 0x1000, Allocated]` gives page 0 attribute `Memory`, not
`Unmapped`. -/
theorem allocated_vma_projects_memory_attribute :
    (UpdatePageTableForVMA initPageTable
        { base := 0, size := 0x1000, ty := .Allocated }).map
        (fun pt => (pt.attributes 0, pt.pointers 0)) =
      some (PageType.Memory, 0) ∧ PageType.Memory ≠ PageType.Unmapped :=
  ⟨by decide, by decide⟩

/-- Claim C1 (amended): for every VMA of type `Allocated`, a successful
`UpdatePageTableForVMA` sets, for each page `p` of the VMA,
`attribute[p] = Memory`, `pointer[p] = null` and
`backing_addr[p] = vma.backing_addr` (the allocated-but-unbacked region is
projected with the `Memory` tag and a null pointer, not as `Unmapped`). -/
lemma updatePageTable_allocated_eq (pt : PageTable) (vma : VirtualMemoryArea)
    (hty : vma.ty = .Allocated) :
    UpdatePageTableForVMA pt vma = MapMemoryRegion pt vma.base vma.size 0 vma.backing_addr := by
  unfold UpdatePageTableForVMA
  rw [hty]

theorem updatePageTable_allocated_pages
    (pt pt2 : PageTable) (vma : VirtualMemoryArea)
    (hty : vma.ty = .Allocated)
    (h : UpdatePageTableForVMA pt vma = some pt2)
    (p : Nat) (hp1 : vma.base / page_size ≤ p)
    (hp2 : p < vma.base / page_size + vma.size / page_size) :
    pt2.attributes p = .Memory ∧ pt2.pointers p = 0 ∧
      pt2.backing_addr p = vma.backing_addr := by
  rw [updatePageTable_allocated_eq pt vma hty] at h
  unfold MapMemoryRegion at h
  split at h
  · unfold MapPages at h
    split at h
    · injection h with h
      subst h
      refine ⟨?_, ?_, ?_⟩ <;> simp [hp1, hp2]
    · exact Option.noConfusion h
  · exact Option.noConfusion h

/-- Witness for `updatePageTable_allocated_pages` at the VMA
`[0x1000, 0x2000, Allocated, backing_addr = 0]` and page 1. -/
theorem updatePageTable_allocated_pages_witness :
    ∃ pt2, UpdatePageTableForVMA initPageTable
        { base := 0x1000, size := 0x2000, ty := .Allocated } = some pt2 ∧
      (pt2.attributes 1 = .Memory ∧ pt2.pointers 1 = 0 ∧ pt2.backing_addr 1 = 0) := by
  have hs : (UpdatePageTableForVMA initPageTable
      { base := 0x1000, size := 0x2000, ty := .Allocated }).isSome = true := by decide
  refine ⟨Option.get _ hs, (Option.some_get hs).symm, ?_⟩
  exact updatePageTable_allocated_pages _ _ _ rfl (Option.some_get hs).symm 1
    (by decide) (by decide)

/-! ### Claim C2 -/

/-- Claim C2 (counterexample): the claim says reads of a page lying in an
`Allocated` VMA return zero and writes are dropped, without aborting. On
the code an `Allocated` page carries `attribute = Memory` with a null
pointer, and both `Read` and `Write` then hit
`ASSERT_MSG(false, "Mapped memory page without a pointer")`: after
`AllocateSpace(0x1000)` on a fresh manager, address 0 lies in the
`Allocated` VMA, and `Read<u32>(0)` / `Write<u32>(0, 5)` both abort. -/
theorem read_allocated_page_asserts :
    (runOps probe [.allocateSpace 0x1000]).map (fun st => st.vma_map) =
      some [{ base := 0, size := 0x1000, ty := .Allocated },
            { base := 0x1000, size := 2 ^ 40 - 0x1000 }] ∧
    (runOps probe [.allocateSpace 0x1000]).map
        (fun st => ((Read st 4 0).isSome, (Write st 4 0 5).isSome)) =
      some (false, false) :=
  ⟨by decide, by decide⟩

/-- Claim C2 (amended): for every address that is out of range, or whose
page has a null pointer slot and the `Unmapped` attribute (i.e. lies in an
`Unmapped` VMA), typed reads return zero and typed writes are dropped
leaving the state unchanged, and neither aborts. Pages of `Allocated`
VMAs are excluded: they carry `attribute = Memory` with a null pointer and
make `Read`/`Write` abort on an assertion (see the counterexample). -/
theorem read_write_unmapped_neutralized
    (st : MMState) (w addr data : Nat)
    (h : IsAddressValid addr = false ∨
      (st.page_table.pointers (addr / page_size) = 0 ∧
        st.page_table.attributes (addr / page_size) = .Unmapped)) :
    Read st w addr = some 0 ∧ Write st w addr data = some st := by
  rcases h with h | ⟨h1, h2⟩
  · constructor <;> simp [Read, Write, h]
  · constructor <;> simp [Read, Write, h1, h2]

/-- Witness for `read_write_unmapped_neutralized`: on the fresh manager,
address 0 is unmapped; `Read<u32>(0)` yields zero and `Write<u32>(0, 5)`
is dropped. -/
theorem read_write_unmapped_neutralized_witness :
    (probe.page_table.pointers 0 = 0 ∧
      probe.page_table.attributes 0 = .Unmapped) ∧
    Read probe 4 0 = some 0 ∧ Write probe 4 0 5 = some probe :=
  ⟨⟨rfl, rfl⟩, read_write_unmapped_neutralized probe 4 0 5 (Or.inr ⟨rfl, rfl⟩)⟩

/-! ### Claim C3 -/

/-- The success condition tested by `FindFreeRegion`: an `Unmapped` VMA
whose end lies past `region_start` and covers `region_start + size`. -/
def freePred (rs size : Nat) (v : VirtualMemoryArea) : Prop :=
  v.ty = .Unmapped ∧ rs < v.base + v.size ∧ rs + size ≤ v.base + v.size

lemma freePred_decide (rs size : Nat) (v : VirtualMemoryArea) :
    (v.ty == VMAType.Unmapped
        && decide (rs < v.base + v.size)
        && decide (rs + size ≤ v.base + v.size)) = true ↔ freePred rs size v := by
  simp [freePred, and_assoc]

/-- The value returned by `FindFreeRegion`: either the sentinel 0 with no
VMA satisfying the condition, or `max rs v.base` for the condition-holding
VMA `v` of least base. -/
lemma findFreeRegion_cases (m : List VirtualMemoryArea) (rs size : Nat)
    (hs : m.Pairwise (fun a b => a.base < b.base)) :
    (FindFreeRegion m rs size = 0 ∧ ∀ v ∈ m, ¬ freePred rs size v) ∨
    (∃ v, v ∈ m ∧ freePred rs size v ∧ FindFreeRegion m rs size = max rs v.base ∧
      ∀ w ∈ m, freePred rs size w → v.base ≤ w.base) := by
  induction m with
  | nil =>
    left
    exact ⟨rfl, by simp⟩
  | cons x xs ih =>
    rcases List.pairwise_cons.mp hs with ⟨hx, hxs⟩
    cases hb : (x.ty == VMAType.Unmapped && decide (rs < x.base + x.size)
        && decide (rs + size ≤ x.base + x.size)) with
    | true =>
      right
      have hpx : freePred rs size x := (freePred_decide rs size x).mp hb
      refine ⟨x, List.mem_cons_self _ _, hpx, ?_, ?_⟩
      · unfold FindFreeRegion
        rw [List.find?_cons]
        simp only [hb]
      · intro w hw hpw
        rcases List.mem_cons.mp hw with rfl | hw
        · exact Nat.le_refl _
        · exact Nat.le_of_lt (hx w hw)
    | false =>
      have hpx : ¬ freePred rs size x := fun hc => by
        rw [(freePred_decide rs size x).mpr hc] at hb
        exact Bool.noConfusion hb
      have hstep : FindFreeRegion (x :: xs) rs size = FindFreeRegion xs rs size := by
        unfold FindFreeRegion
        rw [List.find?_cons]
        simp only [hb]
      rcases ih hxs with ⟨h0, hnone⟩ | ⟨v, hv, hpv, heq, hmin⟩
      · left
        refine ⟨hstep.trans h0, ?_⟩
        intro w hw
        rcases List.mem_cons.mp hw with rfl | hw
        · exact hpx
        · exact hnone w hw
      · right
        refine ⟨v, List.mem_cons_of_mem _ hv, hpv, hstep.trans heq, ?_⟩
        intro w hw hpw
        rcases List.mem_cons.mp hw with rfl | hw
        · exact absurd hpw hpx
        · exact hmin w hw hpw

/-- Claim C3 (counterexample): with the reachable map
`[Allocated 0..0x1000, Unmapped 0x1000..0x2000, Allocated 0x2000..0x3000,
Unmapped 0x3000..2^40)` the smallest address whose 0x2000-byte range lies
inside a single `Unmapped` VMA is 0x3000, but `FindFreeRegion` selects
0x1000 (it only checks that the VMA end covers `region_start + size`, not
that the range fits the VMA) and `AllocateSpace(0x2000)` then aborts in
`CarveVMA` instead of returning 0x3000. -/
theorem allocateSpace_not_lowest_fit :
    (runOps probe [.allocateSpace 0x1000, .allocateSpaceAt 0x2000 0x1000]).map
        (fun st => st.vma_map) =
      some [{ base := 0, size := 0x1000, ty := .Allocated },
            { base := 0x1000, size := 0x1000 },
            { base := 0x2000, size := 0x1000, ty := .Allocated },
            { base := 0x3000, size := 2 ^ 40 - 0x3000 }] ∧
    (runOps probe [.allocateSpace 0x1000, .allocateSpaceAt 0x2000 0x1000]).map
        (fun st => (FindFreeRegion st.vma_map address_space_base 0x2000,
          decide (∃ v ∈ st.vma_map, v.ty = .Unmapped ∧ v.base ≤ 0x3000 ∧
            0x3000 + 0x2000 ≤ v.base + v.size),
          decide (∃ v ∈ st.vma_map, v.ty = .Unmapped ∧ v.base ≤ 0x1000 ∧
            0x1000 + 0x2000 ≤ v.base + v.size),
          (AllocateSpace st 0x2000).map Prod.fst)) =
      some (0x1000, true, false, none) :=
  ⟨by decide, by decide⟩

/-- Claim C3 (amended): a successful `AllocateSpace(size)` returns the
value of `FindFreeRegion(address_space_base, aligned_size)`, which is
`max(address_space_base, v.base)` for the lowest-based `Unmapped` VMA `v`
whose end exceeds `address_space_base` and covers
`address_space_base + aligned_size` (or the sentinel 0 when no VMA
qualifies); the chosen range need not lie inside `v`. -/
theorem allocateSpace_first_fit
    (st : MMState) (size r : Nat) (st2 : MMState)
    (hs : st.vma_map.Pairwise (fun a b => a.base < b.base))
    (h : AllocateSpace st size = some (r, st2)) :
    r = FindFreeRegion st.vma_map address_space_base (alignUp size page_size) ∧
    ((r = 0 ∧ ∀ v ∈ st.vma_map, ¬ freePred address_space_base (alignUp size page_size) v) ∨
      (∃ v, v ∈ st.vma_map ∧ freePred address_space_base (alignUp size page_size) v ∧
        r = max address_space_base v.base ∧
        ∀ w ∈ st.vma_map, freePred address_space_base (alignUp size page_size) w →
          v.base ≤ w.base)) := by
  have hr : r = FindFreeRegion st.vma_map address_space_base (alignUp size page_size) := by
    unfold AllocateSpace at h
    simp only [] at h
    split at h
    · exact absurd h (by simp)
    · injection h with h
      exact (congrArg Prod.fst h).symm
  subst hr
  exact ⟨rfl, findFreeRegion_cases st.vma_map _ _ hs⟩

/-- Witness for `allocateSpace_first_fit`: on the fresh manager,
`AllocateSpace(0x1000)` returns the base of the single free VMA. -/
theorem allocateSpace_first_fit_witness :
    probe.vma_map.Pairwise (fun a b => a.base < b.base) ∧
    ∃ r st2, AllocateSpace probe 0x1000 = some (r, st2) ∧
      r = FindFreeRegion probe.vma_map address_space_base (alignUp 0x1000 page_size) := by
  have hs : (AllocateSpace probe 0x1000).isSome = true := by decide
  have heq : AllocateSpace probe 0x1000 = some ((AllocateSpace probe 0x1000).get hs) :=
    (Option.some_get hs).symm
  refine ⟨by decide, ((AllocateSpace probe 0x1000).get hs).1,
    ((AllocateSpace probe 0x1000).get hs).2, heq, ?_⟩
  exact (allocateSpace_first_fit probe 0x1000 _ _ (by decide) heq).1

/-! ### Claim C4 -/

/-- Claim C4 (counterexample): the claim says that when no `Unmapped`
region can satisfy the request, `AllocateSpace` returns 0 and leaves the
state unchanged. On the code the sentinel 0 from `FindFreeRegion` is
passed to `AllocateMemory` unconditionally: with the reachable map
`[Mapped 0..0x1000, Allocated 0x1000..2^40)` (no `Unmapped` VMA at all),
`AllocateSpace(0x1000)` returns 0 but also turns the `Mapped` VMA at
address 0 into an `Allocated` one, mutating the map. -/
theorem allocateSpace_failure_mutates_state :
    (runOps probe [.mapBufferExAt 0x10000 0 0x1000,
        .allocateSpaceAt 0x1000 (2 ^ 40 - 0x1000)]).map (fun st => st.vma_map) =
      some [{ base := 0, size := 0x1000, ty := .Mapped,
              backing_memory := 0x1010000, backing_addr := 0x10000 },
            { base := 0x1000, size := 2 ^ 40 - 0x1000, ty := .Allocated }] ∧
    (runOps probe [.mapBufferExAt 0x10000 0 0x1000,
        .allocateSpaceAt 0x1000 (2 ^ 40 - 0x1000)]).map
        (fun st => ((st.vma_map.all fun v => v.ty != VMAType.Unmapped),
          (AllocateSpace st 0x1000).map (fun r => (r.1, r.2.vma_map)))) =
      some (true,
        some (0, [{ base := 0, size := 0x1000, ty := .Allocated },
                  { base := 0x1000, size := 2 ^ 40 - 0x1000, ty := .Allocated }])) :=
  ⟨by decide, by decide⟩

/-- Claim C4 (amended): when no `Unmapped` VMA can satisfy the request,
`AllocateSpace` does return the sentinel 0 as its address — but it still
calls `AllocateMemory(0, 0, aligned_size)`, so the operation either aborts
or returns 0 with a possibly mutated map; the state is not left unchanged
in general (see the counterexample). -/
theorem allocateSpace_exhausted_returns_zero
    (st : MMState) (size : Nat)
    (h : ∀ v ∈ st.vma_map, ¬ freePred address_space_base (alignUp size page_size) v) :
    AllocateSpace st size = none ∨ ∃ st2, AllocateSpace st size = some (0, st2) := by
  have hfr : FindFreeRegion st.vma_map address_space_base (alignUp size page_size) = 0 := by
    rw [FindFreeRegion, List.find?_eq_none.mpr]
    intro v hv hb
    exact h v hv ((freePred_decide _ _ v).mp hb)
  unfold AllocateSpace
  simp only [hfr]
  split
  · exact Or.inl rfl
  · exact Or.inr ⟨_, rfl⟩

/-- Witness for `allocateSpace_exhausted_returns_zero`: with the whole
space `Allocated`, `AllocateSpace(0x1000)` returns address 0. -/
theorem allocateSpace_exhausted_returns_zero_witness :
    AllocateSpace ((runOps probe [.allocateSpaceAt 0 (2 ^ 40)]).getD probe) 0x1000 = none ∨
      ∃ st2, AllocateSpace ((runOps probe [.allocateSpaceAt 0 (2 ^ 40)]).getD probe) 0x1000 =
        some (0, st2) := by
  refine allocateSpace_exhausted_returns_zero _ 0x1000 ?_
  intro v hv hp
  have hm : ((runOps probe [.allocateSpaceAt 0 (2 ^ 40)]).getD probe).vma_map =
      [{ base := 0, size := 2 ^ 40, ty := .Allocated }] := by decide
  rw [hm] at hv
  have hveq := List.mem_singleton.mp hv
  subst hveq
  exact absurd hp.1 (by decide)

/-! ### Byte-store lemmas -/

lemma length_readBytes (mem : Nat → Nat) : ∀ n p, (readBytes mem p n).length = n := by
  intro n
  induction n with
  | zero => intro p; rfl
  | succ n ih =>
    intro p
    show (mem p :: readBytes mem (p + 1) n).length = n + 1
    rw [List.length_cons, ih]

lemma readBytes_getD (mem : Nat → Nat) :
    ∀ n p j, j < n → (readBytes mem p n).getD j 0 = mem (p + j) := by
  intro n
  induction n with
  | zero => intro p j hj; omega
  | succ n ih =>
    intro p j hj
    show (mem p :: readBytes mem (p + 1) n).getD j 0 = mem (p + j)
    match j with
    | 0 => rw [Nat.add_zero]; rfl
    | j + 1 =>
      show (readBytes mem (p + 1) n).getD j 0 = mem (p + (j + 1))
      rw [ih (p + 1) j (by omega)]
      congr 1
      omega

lemma replicate_getD (a d : Nat) : ∀ n j, j < n → (List.replicate n a).getD j d = a := by
  intro n
  induction n with
  | zero => intro j hj; omega
  | succ n ih =>
    intro j hj
    match j with
    | 0 => rfl
    | j + 1 => exact ih j (by omega)

lemma writeBytes_out (mem : Nat → Nat) :
    ∀ (bs : List Nat) (p a : Nat), (a < p ∨ p + bs.length ≤ a) →
      writeBytes mem p bs a = mem a := by
  intro bs
  induction bs generalizing mem with
  | nil => intro p a _; rfl
  | cons b bs ih =>
    intro p a ha
    show writeBytes (writeByte mem p b) (p + 1) bs a = mem a
    rw [ih (writeByte mem p b) (p + 1) a (by simp at ha ⊢; omega)]
    unfold writeByte
    rw [if_neg (by simp at ha; omega)]

lemma writeBytes_append (mem : Nat → Nat) :
    ∀ (xs ys : List Nat) (p : Nat),
      writeBytes mem p (xs ++ ys) = writeBytes (writeBytes mem p xs) (p + xs.length) ys := by
  intro xs
  induction xs generalizing mem with
  | nil => intro ys p; rw [List.nil_append]; rfl
  | cons x xs ih =>
    intro ys p
    show writeBytes (writeByte mem p x) (p + 1) (xs ++ ys) = _
    rw [ih (writeByte mem p x) ys (p + 1)]
    have harg : p + 1 + xs.length = p + (x :: xs).length := by
      rw [List.length_cons]; omega
    rw [← harg]
    rfl

lemma readBytes_writeBytes (mem : Nat → Nat) :
    ∀ (bs : List Nat) (p : Nat), readBytes (writeBytes mem p bs) p bs.length = bs := by
  intro bs
  induction bs generalizing mem with
  | nil => intro p; rfl
  | cons b bs ih =>
    intro p
    show readBytes (writeBytes (writeByte mem p b) (p + 1) bs) p (bs.length + 1) = b :: bs
    show writeBytes (writeByte mem p b) (p + 1) bs p ::
        readBytes (writeBytes (writeByte mem p b) (p + 1) bs) (p + 1) bs.length = b :: bs
    rw [ih (writeByte mem p b) (p + 1)]
    rw [writeBytes_out _ bs (p + 1) p (Or.inl (by omega))]
    unfold writeByte
    rw [if_pos rfl]

/-! ### Page-arithmetic lemmas -/

lemma page_size_pos : 0 < page_size := by decide

lemma page_split_div (a j : Nat) :
    (a + j) / page_size = a / page_size + (a % page_size + j) / page_size := by
  conv_lhs => rw [← Nat.div_add_mod a page_size, Nat.add_assoc]
  rw [Nat.mul_add_div page_size_pos]

lemma page_split_mod (a j : Nat) :
    (a + j) % page_size = (a % page_size + j) % page_size := by
  conv_lhs => rw [← Nat.div_add_mod a page_size, Nat.add_assoc]
  rw [Nat.mul_add_mod]

/-! ### Claim C8 -/

/-- The behaviour of the `ReadBlockUnsafe` loop: no callouts, and each
destination byte comes from the page with a non-null pointer slot or is
zero-filled. -/
lemma readBlockUnsafeLoop_spec (pt : PageTable) (mem : Nat → Nat) :
    ∀ fuel n i off, n ≤ fuel → off < page_size →
      (readBlockUnsafeLoop pt mem fuel i off n).2 = [] ∧
      (readBlockUnsafeLoop pt mem fuel i off n).1.length = n ∧
      ∀ j, j < n →
        (readBlockUnsafeLoop pt mem fuel i off n).1.getD j 0 =
          (if pt.pointers (i + (off + j) / page_size) ≠ 0 then
            mem (pt.pointers (i + (off + j) / page_size) + (off + j) % page_size)
          else 0) := by
  intro fuel
  induction fuel with
  | zero =>
    intro n i off hn _
    have hn0 : n = 0 := by omega
    subst hn0
    exact ⟨rfl, rfl, fun j hj => by omega⟩
  | succ fuel ih =>
    intro n i off hn hoff
    match hn1 : n with
    | 0 => exact ⟨rfl, rfl, fun j hj => by omega⟩
    | n' + 1 =>
      have hc1 : 1 ≤ min (page_size - off) (n' + 1) := by omega
      have hcn : min (page_size - off) (n' + 1) ≤ n' + 1 := Nat.min_le_right _ _
      have hrec := ih (n' + 1 - min (page_size - off) (n' + 1)) (i + 1) 0
        (by omega) page_size_pos
      have hstep : readBlockUnsafeLoop pt mem (fuel + 1) i off (n' + 1) =
          ((if pt.pointers i ≠ 0 then
              readBytes mem (pt.pointers i + off) (min (page_size - off) (n' + 1))
            else List.replicate (min (page_size - off) (n' + 1)) 0) ++
            (readBlockUnsafeLoop pt mem fuel (i + 1) 0
              (n' + 1 - min (page_size - off) (n' + 1))).1,
          (readBlockUnsafeLoop pt mem fuel (i + 1) 0
              (n' + 1 - min (page_size - off) (n' + 1))).2) := by
        rw [readBlockUnsafeLoop]
        rw [if_neg (by omega)]
      set c := min (page_size - off) (n' + 1) with hc
      have hchunklen : (if pt.pointers i ≠ 0 then
          readBytes mem (pt.pointers i + off) c
        else List.replicate c 0).length = c := by
        split
        · exact length_readBytes mem c _
        · exact List.length_replicate c 0
      have hstep1 : (readBlockUnsafeLoop pt mem (fuel + 1) i off (n' + 1)).1 =
          (if pt.pointers i ≠ 0 then
            readBytes mem (pt.pointers i + off) c
          else List.replicate c 0) ++
            (readBlockUnsafeLoop pt mem fuel (i + 1) 0 (n' + 1 - c)).1 := by
        rw [hstep]
      have hstep2 : (readBlockUnsafeLoop pt mem (fuel + 1) i off (n' + 1)).2 =
          (readBlockUnsafeLoop pt mem fuel (i + 1) 0 (n' + 1 - c)).2 := by
        rw [hstep]
      refine ⟨?_, ?_, ?_⟩
      · rw [hstep2]
        exact hrec.1
      · rw [hstep1]
        rw [List.length_append, hchunklen, hrec.2.1]
        omega
      · intro j hj
        rw [hstep1]
        by_cases hjc : j < c
        · rw [List.getD_append _ _ _ _ (by rw [hchunklen]; omega)]
          have hdiv : (off + j) / page_size = 0 := Nat.div_eq_of_lt (by omega)
          have hmod : (off + j) % page_size = off + j := Nat.mod_eq_of_lt (by omega)
          rw [hdiv, hmod, Nat.add_zero]
          split
          · rw [readBytes_getD mem c _ j hjc, Nat.add_assoc]
          · rw [replicate_getD 0 0 c j hjc]
        · have hcps : c = page_size - off := by omega
          rw [List.getD_append_right _ _ _ _ (by rw [hchunklen]; omega)]
          rw [hchunklen]
          rw [hrec.2.2 (j - c) (by omega)]
          have hoffj : off + j = page_size + (j - c) := by omega
          rw [hoffj]
          have hdiv : (page_size + (j - c)) / page_size = (j - c) / page_size + 1 := by
            rw [Nat.add_comm page_size (j - c), Nat.add_div_right _ page_size_pos]
          have hmod : (page_size + (j - c)) % page_size = (j - c) % page_size := by
            rw [Nat.add_comm page_size (j - c), Nat.add_mod_right]
          rw [hdiv, hmod]
          have hpg : i + ((j - c) / page_size + 1) = i + 1 + (0 + (j - c)) / page_size := by
            rw [Nat.zero_add]
            omega
          rw [← hpg]
          have hm0 : (j - c) % page_size = (0 + (j - c)) % page_size := by
            rw [Nat.zero_add]
          rw [← hm0]

/-- Claim C8: `ReadBlockUnsafe` copies, for every page of the range with a
non-null pointer slot, the page bytes into the destination, zero-fills the
destination over pages with a null pointer slot, and performs no
rasterizer callouts at all. -/
theorem readBlockUnsafe_zero_fill_no_callouts
    (pt : PageTable) (mem : Nat → Nat) (a n j : Nat) (hj : j < n) :
    ( ReadBlockUnsafe pt mem a n).2 = [] ∧
    ( ReadBlockUnsafe pt mem a n).1.length = n ∧
    ( ReadBlockUnsafe pt mem a n).1.getD j 0 =
      (if pt.pointers ((a + j) / page_size) ≠ 0 then
        mem (pt.pointers ((a + j) / page_size) + (a + j) % page_size)
      else 0) := by
  have h := readBlockUnsafeLoop_spec pt mem (n + 1) n (a / page_size) (a % page_size)
    (by omega) (Nat.mod_lt _ page_size_pos)
  refine ⟨h.1, h.2.1, ?_⟩
  rw [show ( ReadBlockUnsafe pt mem a n).1 =
    (readBlockUnsafeLoop pt mem (n + 1) (a / page_size) (a % page_size) n).1 from rfl]
  rw [h.2.2 j hj, page_split_div a j, page_split_mod a j]

/-- Witness for `readBlockUnsafe_zero_fill_no_callouts` on a fresh page
table (null pointer slots): one byte at address 0 is zero-filled. -/
theorem readBlockUnsafe_zero_fill_no_callouts_witness :
    ( ReadBlockUnsafe initPageTable (fun _ => 7) 0 1).2 = [] ∧
    ( ReadBlockUnsafe initPageTable (fun _ => 7) 0 1).1.length = 1 ∧
    ( ReadBlockUnsafe initPageTable (fun _ => 7) 0 1).1.getD 0 0 =
      (if initPageTable.pointers ((0 + 0) / page_size) ≠ 0 then
        (fun _ => 7) (initPageTable.pointers ((0 + 0) / page_size) + (0 + 0) % page_size)
      else 0) :=
  readBlockUnsafe_zero_fill_no_callouts initPageTable (fun _ => 7) 0 1 0 (by decide)

/-! ### Claim C9 -/

/-- The `ReadBlock` loop succeeds whenever every touched page carries the
`Memory` attribute, and each byte is copied from
`pointers[page] + offset` — with no check of the pointer slot. -/
lemma readBlockLoop_spec (pt : PageTable) (mem : Nat → Nat) :
    ∀ fuel n i off, n < fuel → off < page_size →
      (∀ k, k * page_size < off + n → pt.attributes (i + k) = .Memory) →
      ∃ bytes evs, readBlockLoop pt mem fuel i off n = some (bytes, evs) ∧
        bytes.length = n ∧
        ∀ j, j < n → bytes.getD j 0 =
          mem (pt.pointers (i + (off + j) / page_size) + (off + j) % page_size) := by
  intro fuel
  induction fuel with
  | zero => intro n i off hn; omega
  | succ fuel ih =>
    intro n i off hn hoff hattr
    match n with
    | 0 =>
      refine ⟨[], [], ?_, rfl, fun j hj => by omega⟩
      rw [readBlockLoop]
      rw [if_pos rfl]
    | n' + 1 =>
      have hattr0 : pt.attributes i = .Memory := by
        have := hattr 0 (by omega)
        rwa [Nat.add_zero] at this
      set c := min (page_size - off) (n' + 1) with hc
      have hc1 : 1 ≤ c := by omega
      have hcn : c ≤ n' + 1 := by omega
      obtain ⟨bytes2, evs2, hrec, hlen2, hget2⟩ :=
        ih (n' + 1 - c) (i + 1) 0 (by omega) page_size_pos (by
          intro k hk
          have hcase : c = page_size - off ∨ c = n' + 1 := by omega
          rcases hcase with hcps | hceq
          · have := hattr (k + 1) (by
              rw [Nat.add_mul, Nat.one_mul]
              omega)
            rwa [show i + (k + 1) = i + 1 + k by omega] at this
          · exact absurd hk (by omega))
      refine ⟨readBytes mem (pt.pointers i + off) c ++ bytes2,
        REvent.flush (ToCacheAddr (pt.pointers i + off)) c :: evs2, ?_, ?_, ?_⟩
      · rw [readBlockLoop]
        rw [if_neg (by omega : ¬ n' + 1 = 0)]
        simp only [hattr0, hrec]
      · rw [List.length_append, length_readBytes, hlen2]
        omega
      · intro j hj
        by_cases hjc : j < c
        · rw [List.getD_append _ _ _ _ (by rw [length_readBytes]; omega)]
          have hdiv : (off + j) / page_size = 0 := Nat.div_eq_of_lt (by omega)
          have hmod : (off + j) % page_size = off + j := Nat.mod_eq_of_lt (by omega)
          rw [hdiv, hmod, Nat.add_zero, readBytes_getD mem c _ j hjc, Nat.add_assoc]
        · have hcps : c = page_size - off := by omega
          rw [List.getD_append_right _ _ _ _ (by rw [length_readBytes]; omega)]
          rw [length_readBytes, hget2 (j - c) (by omega)]
          have hoffj : off + j = page_size + (j - c) := by omega
          rw [hoffj]
          have hdiv : (page_size + (j - c)) / page_size = (j - c) / page_size + 1 := by
            rw [Nat.add_comm page_size (j - c), Nat.add_div_right _ page_size_pos]
          have hmod : (page_size + (j - c)) % page_size = (j - c) % page_size := by
            rw [Nat.add_comm page_size (j - c), Nat.add_mod_right]
          rw [hdiv, hmod]
          have hpg : i + ((j - c) / page_size + 1) = i + 1 + (0 + (j - c)) / page_size := by
            rw [Nat.zero_add]; omega
          rw [← hpg]
          rw [show (j - c) % page_size = (0 + (j - c)) % page_size by rw [Nat.zero_add]]

/-- The `WriteBlock` loop succeeds whenever every touched page carries the
`Memory` attribute, again with no check of the pointer slot. -/
lemma writeBlockLoop_some (pt : PageTable) :
    ∀ fuel (buf : List Nat) (i off : Nat) (mem : Nat → Nat), buf.length < fuel →
      off < page_size →
      (∀ k, k * page_size < off + buf.length → pt.attributes (i + k) = .Memory) →
      ∃ mem2 evs, writeBlockLoop pt mem fuel i off buf = some (mem2, evs) := by
  intro fuel
  induction fuel with
  | zero => intro buf i off mem hn; omega
  | succ fuel ih =>
    intro buf i off mem hn hoff hattr
    by_cases hb : buf.length = 0
    · refine ⟨mem, [], ?_⟩
      rw [writeBlockLoop, if_pos hb]
    · have hattr0 : pt.attributes i = .Memory := by
        have := hattr 0 (by omega)
        rwa [Nat.add_zero] at this
      set c := min (page_size - off) buf.length with hc
      have hc1 : 1 ≤ c := by omega
      obtain ⟨mem2, evs2, hrec⟩ :=
        ih (buf.drop c) (i + 1) 0 (writeBytes mem (pt.pointers i + off) (buf.take c))
          (by rw [List.length_drop]; omega) page_size_pos (by
            intro k hk
            rw [List.length_drop] at hk
            have hcase : c = page_size - off ∨ c = buf.length := by omega
            rcases hcase with hcps | hceq
            · have := hattr (k + 1) (by
                rw [Nat.add_mul, Nat.one_mul]
                omega)
              rwa [show i + (k + 1) = i + 1 + k by omega] at this
            · exact absurd hk (by omega))
      refine ⟨mem2, REvent.invalidate (ToCacheAddr (pt.pointers i + off)) c :: evs2, ?_⟩
      rw [writeBlockLoop, if_neg hb]
      simp only [hattr0, hrec]

/-- Claim C9 (counterexample): the claim says the `ReadBlock`/`WriteBlock`
loops never copy through a null page pointer (a null-pointer page would
halt via an assertion). After `AllocateSpace(0x1000)` on a fresh manager,
page 0 has a null pointer slot but the `Memory` attribute, and both
`ReadBlock(0, 4)` and `WriteBlock(0, 4 bytes)` run to completion copying
through the null pointer (host address `0 + offset`) instead of halting. -/
theorem readBlock_copies_through_null_pointer :
    (runOps probe [.allocateSpace 0x1000]).map
        (fun st => (st.page_table.pointers 0,
          (ReadBlock st.page_table st.hostMem 0 4).isSome,
          (WriteBlock st.page_table st.hostMem 0 [1, 2, 3, 4]).isSome)) =
      some (0, true, true) := by decide

/-- Claim C9 (amended): the `ReadBlock`/`WriteBlock` loops branch only on
the page attribute, never on the pointer slot: when every touched page has
attribute `Memory`, both loops run to completion, and `ReadBlock` copies
each byte from `pointers[page] + offset` even when `pointers[page]` is
null (the projection of an `Allocated` VMA); only a page with a
non-`Memory` attribute halts via `UNREACHABLE()`. -/
theorem readBlock_attribute_driven
    (pt : PageTable) (mem : Nat → Nat) (a n : Nat) (buf : List Nat)
    (hattr : ∀ p, a / page_size ≤ p → p * page_size < a + n → pt.attributes p = .Memory)
    (hbuf : buf.length = n) :
    (∃ bytes evs, ReadBlock pt mem a n = some (bytes, evs) ∧ bytes.length = n ∧
      ∀ j, j < n → bytes.getD j 0 =
        mem (pt.pointers ((a + j) / page_size) + (a + j) % page_size)) ∧
    (∃ mem2 evs2, WriteBlock pt mem a buf = some (mem2, evs2)) := by
  have hattr2 : ∀ k, k * page_size < a % page_size + n →
      pt.attributes (a / page_size + k) = .Memory := by
    intro k hk
    refine hattr (a / page_size + k) (by omega) ?_
    have hsplit : page_size * (a / page_size) + a % page_size = a := Nat.div_add_mod a page_size
    rw [Nat.mul_comm page_size (a / page_size)] at hsplit
    rw [Nat.add_mul]
    omega
  constructor
  · obtain ⟨bytes, evs, hrun, hlen, hget⟩ := readBlockLoop_spec pt mem (n + 1) n
      (a / page_size) (a % page_size) (by omega) (Nat.mod_lt _ page_size_pos) hattr2
    refine ⟨bytes, evs, hrun, hlen, ?_⟩
    intro j hj
    rw [hget j hj, page_split_div a j, page_split_mod a j]
  · obtain ⟨mem2, evs2, hrun⟩ := writeBlockLoop_some pt (buf.length + 1) buf
      (a / page_size) (a % page_size) mem (by omega) (Nat.mod_lt _ page_size_pos)
      (by rw [hbuf]; exact hattr2)
    exact ⟨mem2, evs2, hrun⟩

/-- Witness for `readBlock_attribute_driven`: a two-page `Memory`-tagged
table with null pointers, reading and writing 4 bytes at address 0. -/
theorem readBlock_attribute_driven_witness :
    (∃ bytes evs,
      ReadBlock ⟨fun _ => 0, fun _ => .Memory, fun _ => 0⟩ (fun _ => 9) 0 4 =
        some (bytes, evs) ∧ bytes.length = 4 ∧
      ∀ j, j < 4 → bytes.getD j 0 =
        (fun _ => 9) ((⟨fun _ => 0, fun _ => .Memory, fun _ => 0⟩ : PageTable).pointers
            ((0 + j) / page_size) + (0 + j) % page_size)) ∧
    (∃ mem2 evs2,
      WriteBlock ⟨fun _ => 0, fun _ => .Memory, fun _ => 0⟩ (fun _ => 9) 0 [5, 6, 7, 8] =
        some (mem2, evs2)) :=
  readBlock_attribute_driven ⟨fun _ => 0, fun _ => .Memory, fun _ => 0⟩ (fun _ => 9) 0 4
    [5, 6, 7, 8] (fun _ _ _ => rfl) rfl

/-! ### Claim C6 -/

lemma readBytes_split (mem : Nat → Nat) :
    ∀ (x y p : Nat), readBytes mem p (x + y) = readBytes mem p x ++ readBytes mem (p + x) y := by
  intro x
  induction x with
  | zero =>
    intro y p
    rw [Nat.zero_add, Nat.add_zero]
    rfl
  | succ x ih =>
    intro y p
    have hxy : x + 1 + y = (x + y) + 1 := by omega
    rw [hxy]
    show mem p :: readBytes mem (p + 1) (x + y) = _
    rw [ih y (p + 1)]
    rw [show p + (x + 1) = p + 1 + x by omega]
    rfl

/-- When the touched pages of the loop carry `Memory` attributes and
contiguous host pointers `P0 + k * page_size`, the `ReadBlock` loop reads
exactly the contiguous host bytes starting at `P0 + off`. -/
lemma readBlockLoop_contig (pt : PageTable) :
    ∀ fuel (mem : Nat → Nat) (n i off P0 : Nat), n < fuel → off < page_size →
      (∀ k, k * page_size < off + n →
        pt.attributes (i + k) = .Memory ∧ pt.pointers (i + k) = P0 + k * page_size) →
      ∃ evs, readBlockLoop pt mem fuel i off n =
        some (readBytes mem (P0 + off) n, evs) := by
  intro fuel
  induction fuel with
  | zero => intro mem n i off P0 hn; omega
  | succ fuel ih =>
    intro mem n i off P0 hn hoff hp
    match n with
    | 0 =>
      refine ⟨[], ?_⟩
      rw [readBlockLoop, if_pos rfl]
      rfl
    | n' + 1 =>
      have hp0 := hp 0 (by omega)
      rw [Nat.add_zero, Nat.zero_mul, Nat.add_zero] at hp0
      set c := min (page_size - off) (n' + 1) with hc
      have hc1 : 1 ≤ c := by omega
      have hcn : c ≤ n' + 1 := by omega
      obtain ⟨evs2, hrec⟩ := ih mem (n' + 1 - c) (i + 1) 0 (P0 + page_size)
        (by omega) page_size_pos (by
          intro k hk
          have hcase : c = page_size - off ∨ c = n' + 1 := by omega
          rcases hcase with hcps | hceq
          · have := hp (k + 1) (by rw [Nat.add_mul, Nat.one_mul]; omega)
            rw [show i + (k + 1) = i + 1 + k by omega] at this
            refine ⟨this.1, ?_⟩
            rw [this.2, Nat.add_mul, Nat.one_mul]
            omega
          · exact absurd hk (by omega))
      refine ⟨REvent.flush (ToCacheAddr (pt.pointers i + off)) c :: evs2, ?_⟩
      have hsplit : readBytes mem (P0 + off) (n' + 1) =
          readBytes mem (P0 + off) c ++ readBytes mem (P0 + off + c) (n' + 1 - c) := by
        conv_lhs => rw [show n' + 1 = c + (n' + 1 - c) by omega]
        rw [readBytes_split]
      rw [readBlockLoop, if_neg (by omega : ¬ n' + 1 = 0)]
      simp only [hp0.1, hrec]
      rw [hp0.2, hsplit]
      by_cases hcps : c = page_size - off
      · rw [show P0 + page_size + 0 = P0 + off + c by omega]
      · rw [show n' + 1 - c = 0 by omega]
        rfl

/-- The `WriteBlock` analogue: contiguous `Memory` pages make the loop
store the buffer contiguously at `P0 + off`. -/
lemma writeBlockLoop_contig (pt : PageTable) :
    ∀ fuel (mem : Nat → Nat) (buf : List Nat) (i off P0 : Nat),
      buf.length < fuel → off < page_size →
      (∀ k, k * page_size < off + buf.length →
        pt.attributes (i + k) = .Memory ∧ pt.pointers (i + k) = P0 + k * page_size) →
      ∃ evs, writeBlockLoop pt mem fuel i off buf =
        some (writeBytes mem (P0 + off) buf, evs) := by
  intro fuel
  induction fuel with
  | zero => intro mem buf i off P0 hn; omega
  | succ fuel ih =>
    intro mem buf i off P0 hn hoff hp
    by_cases hb : buf.length = 0
    · refine ⟨[], ?_⟩
      rw [writeBlockLoop, if_pos hb]
      have hnil : buf = [] := List.length_eq_zero.mp hb
      rw [hnil]
      rfl
    · have hp0 := hp 0 (by omega)
      rw [Nat.add_zero, Nat.zero_mul, Nat.add_zero] at hp0
      set c := min (page_size - off) buf.length with hc
      have hc1 : 1 ≤ c := by omega
      have hcn : c ≤ buf.length := by omega
      obtain ⟨evs2, hrec⟩ := ih (writeBytes mem (P0 + off) (buf.take c)) (buf.drop c)
        (i + 1) 0 (P0 + page_size)
        (by rw [List.length_drop]; omega) page_size_pos (by
          intro k hk
          rw [List.length_drop] at hk
          have hcase : c = page_size - off ∨ c = buf.length := by omega
          rcases hcase with hcps | hceq
          · have := hp (k + 1) (by rw [Nat.add_mul, Nat.one_mul]; omega)
            rw [show i + (k + 1) = i + 1 + k by omega] at this
            refine ⟨this.1, ?_⟩
            rw [this.2, Nat.add_mul, Nat.one_mul]
            omega
          · exact absurd hk (by omega))
      refine ⟨REvent.invalidate (ToCacheAddr (pt.pointers i + off)) c :: evs2, ?_⟩
      rw [writeBlockLoop, if_neg hb]
      simp only [hp0.1, hp0.2, hrec]
      have hws : writeBytes (writeBytes mem (P0 + off) (buf.take c)) (P0 + page_size + 0)
          (buf.drop c) = writeBytes mem (P0 + off) buf := by
        by_cases hcps : c = page_size - off
        · conv_rhs => rw [← List.take_append_drop c buf]
          rw [writeBytes_append]
          rw [List.length_take, show min c buf.length = c by omega]
          rw [show P0 + off + c = P0 + page_size + 0 by omega]
        · have hceq : c = buf.length := by omega
          rw [hceq, List.drop_length]
          rw [show buf.take buf.length = buf from List.take_length buf]
          rfl
      rw [hws]

/-- Claim C6: for every range `[a, a + buf.length)` lying wholly inside
one `Mapped` VMA (whose pages the page table projects in the standard
contiguous way), `WriteBlock(a, buf)` followed by
`ReadBlock(a, buf.length)` returns exactly `buf`, page-boundary straddling
included. -/
theorem writeBlock_readBlock_roundtrip
    (pt : PageTable) (mem : Nat → Nat) (vma : VirtualMemoryArea)
    (a : Nat) (buf : List Nat)
    (hty : vma.ty = .Mapped)
    (halb : vma.base % page_size = 0) (hals : vma.size % page_size = 0)
    (hlo : vma.base ≤ a) (hhi : a + buf.length ≤ vma.base + vma.size)
    (hproj : ∀ p, vma.base / page_size ≤ p → p < (vma.base + vma.size) / page_size →
      pt.attributes p = .Memory ∧
      pt.pointers p = vma.backing_memory + (p - vma.base / page_size) * page_size) :
    ∃ mem2 evsW evsR,
      WriteBlock pt mem a buf = some (mem2, evsW) ∧
      ReadBlock pt mem2 a buf.length = some (buf, evsR) := by
  have hA : a / page_size * page_size + a % page_size = a := by
    have := Nat.div_add_mod a page_size
    rw [Nat.mul_comm] at this
    exact this
  have hB : vma.base / page_size * page_size = vma.base :=
    Nat.div_mul_cancel (Nat.dvd_of_mod_eq_zero halb)
  have hBS : (vma.base + vma.size) / page_size * page_size = vma.base + vma.size :=
    Nat.div_mul_cancel (Nat.dvd_add (Nat.dvd_of_mod_eq_zero halb)
      (Nat.dvd_of_mod_eq_zero hals))
  have hBle : vma.base / page_size ≤ a / page_size :=
    Nat.div_le_div_right hlo
  have h2 : ∀ k, k * page_size < a % page_size + buf.length →
      pt.attributes (a / page_size + k) = .Memory ∧
      pt.pointers (a / page_size + k) =
        (vma.backing_memory + (a / page_size - vma.base / page_size) * page_size) +
          k * page_size := by
    intro k hk
    have hub : a / page_size + k < (vma.base + vma.size) / page_size := by
      by_contra hcon
      have hge : (vma.base + vma.size) / page_size ≤ a / page_size + k :=
        Nat.le_of_not_lt hcon
      have hmul := Nat.mul_le_mul_right page_size hge
      rw [hBS, Nat.add_mul] at hmul
      omega
    have hh := hproj (a / page_size + k) (by omega) hub
    refine ⟨hh.1, ?_⟩
    rw [hh.2]
    rw [show a / page_size + k - vma.base / page_size =
      (a / page_size - vma.base / page_size) + k by omega]
    rw [Nat.add_mul]
    omega
  have hoff : a % page_size < page_size := Nat.mod_lt _ page_size_pos
  obtain ⟨evsW, hW⟩ := writeBlockLoop_contig pt (buf.length + 1) mem buf
    (a / page_size) (a % page_size)
    (vma.backing_memory + (a / page_size - vma.base / page_size) * page_size)
    (by omega) hoff h2
  obtain ⟨evsR, hR⟩ := readBlockLoop_contig pt (buf.length + 1)
    (writeBytes mem
      (vma.backing_memory + (a / page_size - vma.base / page_size) * page_size +
        a % page_size) buf)
    buf.length (a / page_size) (a % page_size)
    (vma.backing_memory + (a / page_size - vma.base / page_size) * page_size)
    (by omega) hoff h2
  refine ⟨_, evsW, evsR, hW, ?_⟩
  rw [ReadBlock, hR, readBytes_writeBytes]

/-- Witness for `writeBlock_readBlock_roundtrip`: a two-page mapping at
address 0 backed at host pointer 0x100000; the two-byte buffer at
address 0xFFF straddles the page boundary. -/
theorem writeBlock_readBlock_roundtrip_witness :
    ∃ mem2 evsW evsR,
      WriteBlock
          ⟨fun p => if p < 2 then 0x100000 + p * page_size else 0,
            fun p => if p < 2 then .Memory else .Unmapped, fun _ => 0⟩
          (fun _ => 0) 0xFFF [21, 42] = some (mem2, evsW) ∧
      ReadBlock
          ⟨fun p => if p < 2 then 0x100000 + p * page_size else 0,
            fun p => if p < 2 then .Memory else .Unmapped, fun _ => 0⟩
          mem2 0xFFF ([21, 42] : List Nat).length = some ([21, 42], evsR) := by
  refine writeBlock_readBlock_roundtrip _ (fun _ => 0)
    { base := 0, size := 0x2000, ty := .Mapped, backing_memory := 0x100000 }
    0xFFF [21, 42] rfl (by decide) (by decide) (by decide) (by decide) ?_
  intro p hp1 hp2
  have hp3 : p < 2 := by simpa [page_size, page_bits] using hp2
  interval_cases p
  · exact ⟨by decide, by decide⟩
  · exact ⟨by decide, by decide⟩

/-! ### Interval-map proof layer: adjacency, positions, list surgery -/

/-- Two VMAs are adjacent when the first ends where the second begins. -/
def Adj (a b : VirtualMemoryArea) : Prop := a.base + a.size = b.base

/-- The end of the covered range: the end of the last VMA. -/
def coverEnd (m : List VirtualMemoryArea) : Nat :=
  match m.getLast? with
  | some v => v.base + v.size
  | none => 0

/-- The base of the VMA a loop index points at (or the end of coverage
once the index runs off the list). -/
def frontierOf (m : List VirtualMemoryArea) (i : Nat) : Nat :=
  match m[i]? with
  | some v => v.base
  | none => coverEnd m

/-- Reachability invariant used by C10: pages of every `Allocated` VMA
carry a zero backing address in the page table. -/
def AP (m : List VirtualMemoryArea) (pt : PageTable) : Prop :=
  ∀ v ∈ m, v.ty = .Allocated → ∀ pg, v.base ≤ pg * page_size →
    pg * page_size < v.base + v.size → pt.backing_addr pg = 0

/-- `mergeNext` declined (or had no next neighbour). -/
def nextNotMerge (v : VirtualMemoryArea) (B : List VirtualMemoryArea) : Prop :=
  ∀ b ∈ B.head?, CanBeMergedWith v b = some false

/-- `mergePrev` declined (or had no previous neighbour). -/
def prevNotMerge (A : List VirtualMemoryArea) (v : VirtualMemoryArea) : Prop :=
  ∀ p ∈ A.getLast?, CanBeMergedWith p v = some false

section ListHelpers

variable {α : Type}

lemma getElem?_append_length (A B : List α) (v : α) : (A ++ v :: B)[A.length]? = some v := by
  induction A with
  | nil => simp
  | cons a A ih => simpa using ih

lemma getElem?_append_length_succ (A B : List α) (v : α) :
    (A ++ v :: B)[A.length + 1]? = B[0]? := by
  induction A with
  | nil => simp
  | cons a A ih => simpa using ih

lemma getElem?_append_lt (A B : List α) (k : Nat) (h : k < A.length) :
    (A ++ B)[k]? = A[k]? := by
  induction A generalizing k with
  | nil => simp at h
  | cons a A ih =>
    match k with
    | 0 => simp
    | k + 1 =>
      simp only [List.cons_append, List.getElem?_cons_succ]
      exact ih k (by simpa using h)

lemma set_append_length (A B : List α) (v w : α) :
    (A ++ v :: B).set A.length w = A ++ w :: B := by
  induction A with
  | nil => rfl
  | cons a A ih => simpa using ih

lemma eraseIdx_append_length (A B : List α) (v : α) :
    (A ++ v :: B).eraseIdx A.length = A ++ B := by
  induction A with
  | nil => rfl
  | cons a A ih => simpa using ih

lemma take_append_length (A B : List α) (v : α) :
    (A ++ v :: B).take (A.length + 1) = A ++ [v] := by
  induction A with
  | nil => rfl
  | cons a A ih => simpa using ih

lemma drop_append_length (A B : List α) (v : α) :
    (A ++ v :: B).drop (A.length + 1) = B := by
  induction A with
  | nil => rfl
  | cons a A ih => simpa using ih

lemma list_decomp (m : List α) (i : Nat) (v : α) (h : m[i]? = some v) :
    ∃ A B, m = A ++ v :: B ∧ A.length = i := by
  induction m generalizing i with
  | nil => simp at h
  | cons x m ih =>
    match i with
    | 0 =>
      refine ⟨[], m, ?_, rfl⟩
      simp only [List.getElem?_cons_zero, Option.some.injEq] at h
      rw [h]
      rfl
    | i + 1 =>
      obtain ⟨A, B, hm, hA⟩ := ih i (by simpa using h)
      exact ⟨x :: A, B, by rw [List.cons_append, hm], by simp [hA]⟩

end ListHelpers

lemma insertAt_append_length (A B : List VirtualMemoryArea) (v u : VirtualMemoryArea) :
    insertAt (A ++ v :: B) (A.length + 1) u = A ++ v :: u :: B := by
  unfold insertAt
  rw [take_append_length, drop_append_length, List.append_assoc]
  rfl

/-! ### Chain and position lemmas -/

lemma chain_cons_head (a : VirtualMemoryArea) (L : List VirtualMemoryArea)
    (h : List.Chain' Adj (a :: L)) : ∀ hd ∈ L.head?, Adj a hd := by
  intro hd hhd
  rcases L with _ | ⟨b, L⟩
  · simp at hhd
  · simp only [List.head?_cons, Option.mem_def, Option.some.injEq] at hhd
    subst hhd
    exact List.chain'_cons.mp h |>.1

lemma prefix_end_le (A : List VirtualMemoryArea) (v : VirtualMemoryArea)
    (B : List VirtualMemoryArea) (h : List.Chain' Adj (A ++ v :: B)) :
    ∀ u ∈ A, u.base + u.size ≤ v.base := by
  induction A with
  | nil => simp
  | cons a A ih =>
    intro u hu
    have htail : List.Chain' Adj (A ++ v :: B) := (List.chain'_cons'.mp h).2
    rcases List.mem_cons.mp hu with rfl | hu
    · rcases A with _ | ⟨a2, A2⟩
      · have := chain_cons_head u (v :: B) h v (by rfl)
        rw [this]
      · have hadj := chain_cons_head u ((a2 :: A2) ++ v :: B) h a2 (by rfl)
        have h2 := ih htail a2 (by simp)
        unfold Adj at hadj
        omega
    · exact ih htail u hu

lemma chain_head_le (v : VirtualMemoryArea) (C : List VirtualMemoryArea)
    (h : List.Chain' Adj (v :: C)) : ∀ u ∈ C, v.base ≤ u.base := by
  induction C generalizing v with
  | nil => simp
  | cons c C ih =>
    intro u hu
    have hadj : Adj v c := List.chain'_cons.mp h |>.1
    have htail : List.Chain' Adj (c :: C) := List.chain'_cons.mp h |>.2
    rcases List.mem_cons.mp hu with rfl | hu
    · unfold Adj at hadj
      omega
    · have := ih c htail u hu
      unfold Adj at hadj
      omega

lemma coverEnd_concat (A : List VirtualMemoryArea) (v : VirtualMemoryArea) :
    coverEnd (A ++ [v]) = v.base + v.size := by
  unfold coverEnd
  rw [List.getLast?_concat]

lemma coverEnd_append_cons (A : List VirtualMemoryArea) (v : VirtualMemoryArea)
    (B : List VirtualMemoryArea) :
    coverEnd (A ++ v :: B) = coverEnd (v :: B) := by
  unfold coverEnd
  rcases List.eq_nil_or_concat' B with rfl | ⟨B2, b, rfl⟩
  · rw [show A ++ [v] = A ++ [v] from rfl, List.getLast?_concat]
    rfl
  · rw [show A ++ v :: (B2 ++ [b]) = (A ++ v :: B2) ++ [b] by simp, List.getLast?_concat]
    rw [show v :: (B2 ++ [b]) = (v :: B2) ++ [b] by simp, List.getLast?_concat]

lemma end_le_coverEnd :
    ∀ (m : List VirtualMemoryArea), List.Chain' Adj m →
      ∀ u ∈ m, u.base + u.size ≤ coverEnd m := by
  intro m
  induction m with
  | nil => simp
  | cons x L ih =>
    intro h u hu
    rcases L with _ | ⟨y, L2⟩
    · rcases List.mem_singleton.mp hu with rfl
      exact Nat.le_of_eq rfl
    · have hrw : coverEnd (x :: y :: L2) = coverEnd (y :: L2) :=
        coverEnd_append_cons [x] y L2
      have htail : List.Chain' Adj (y :: L2) := List.chain'_cons.mp h |>.2
      have hadj : Adj x y := List.chain'_cons.mp h |>.1
      rw [hrw]
      rcases List.mem_cons.mp hu with rfl | hu
      · have hy := ih htail y (by simp)
        unfold Adj at hadj
        omega
      · exact ih htail u hu

lemma base_lt_coverEnd (m : List VirtualMemoryArea) (h : List.Chain' Adj m)
    (hpos : ∀ v ∈ m, 0 < v.size) : ∀ u ∈ m, u.base < coverEnd m := by
  intro u hu
  have := end_le_coverEnd m h u hu
  have := hpos u hu
  omega

lemma canBeMerged_true (a b : VirtualMemoryArea) (h : CanBeMergedWith a b = some true) :
    a.base + a.size = b.base ∧ a.ty = b.ty ∧
    (a.ty = .Allocated → a.offset + a.size = b.offset) ∧
    (a.ty = .Mapped → a.backing_memory + a.size = b.backing_memory) := by
  unfold CanBeMergedWith at h
  by_cases h1 : a.base + a.size ≠ b.base
  · rw [if_pos h1] at h
    exact Option.noConfusion h
  · rw [if_neg h1] at h
    by_cases h2 : a.ty ≠ b.ty
    · rw [if_pos h2] at h
      exact absurd (Option.some.inj h) (by simp)
    · rw [if_neg h2] at h
      by_cases h3 : a.ty = .Allocated ∧ a.offset + a.size ≠ b.offset
      · rw [if_pos h3] at h
        exact absurd (Option.some.inj h) (by simp)
      · rw [if_neg h3] at h
        by_cases h4 : a.ty = .Mapped ∧ a.backing_memory + a.size ≠ b.backing_memory
        · rw [if_pos h4] at h
          exact absurd (Option.some.inj h) (by simp)
        · refine ⟨not_not.mp h1, not_not.mp h2, ?_, ?_⟩
          · intro hA
            by_contra hne
            exact h3 ⟨hA, hne⟩
          · intro hM
            by_contra hne
            exact h4 ⟨hM, hne⟩

lemma mergedVMA_base (a b : VirtualMemoryArea) : (mergedVMA a b).base = a.base := rfl

lemma mergedVMA_size (a b : VirtualMemoryArea) : (mergedVMA a b).size = a.size + b.size := rfl

lemma mergedVMA_ty (a b : VirtualMemoryArea) : (mergedVMA a b).ty = a.ty := rfl

lemma mergedVMA_end (a b : VirtualMemoryArea) (hadj : Adj a b) :
    (mergedVMA a b).base + (mergedVMA a b).size = b.base + b.size := by
  rw [mergedVMA_base, mergedVMA_size]
  unfold Adj at hadj
  omega

lemma splitRight_base (X : VirtualMemoryArea) (off : Nat) :
    (splitRight X off).base = X.base + off := by
  cases h : X.ty <;> simp [splitRight, h]

lemma splitRight_size (X : VirtualMemoryArea) (off : Nat) :
    (splitRight X off).size = X.size - off := by
  cases h : X.ty <;> simp [splitRight, h]

lemma splitRight_ty (X : VirtualMemoryArea) (off : Nat) :
    (splitRight X off).ty = X.ty := by
  cases h : X.ty <;> simp [splitRight, h]

/-! ### Shapes of the merge steps -/

lemma mergeNext_shape (A B : List VirtualMemoryArea) (v : VirtualMemoryArea)
    (m1 : List VirtualMemoryArea)
    (h : mergeNext (A ++ v :: B) A.length = some m1) :
    (m1 = A ++ v :: B ∧ nextNotMerge v B) ∨
    (∃ b B2, B = b :: B2 ∧ CanBeMergedWith v b = some true ∧
      m1 = A ++ mergedVMA v b :: B2) := by
  unfold mergeNext at h
  rw [getElem?_append_length, getElem?_append_length_succ] at h
  rcases B with _ | ⟨b, B2⟩
  · simp only [List.getElem?_nil] at h
    left
    refine ⟨(Option.some.inj h).symm, ?_⟩
    intro b hb
    simp at hb
  · simp only [List.getElem?_cons_zero] at h
    rcases hm : CanBeMergedWith v b with _ | hb
    · simp only [hm] at h
      exact Option.noConfusion h
    · match hb with
      | false =>
        simp only [hm] at h
        left
        refine ⟨(Option.some.inj h).symm, ?_⟩
        intro b2 hb2
        simp only [List.head?_cons, Option.mem_def, Option.some.injEq] at hb2
        subst hb2
        exact hm
      | true =>
        simp only [hm] at h
        right
        refine ⟨b, B2, rfl, hm, ?_⟩
        rw [show A ++ v :: b :: B2 = A ++ v :: (b :: B2) from rfl,
          set_append_length] at h
        rw [show A ++ mergedVMA v b :: b :: B2 = (A ++ [mergedVMA v b]) ++ b :: B2 by simp,
          show A.length + 1 = (A ++ [mergedVMA v b]).length by simp,
          eraseIdx_append_length] at h
        rw [← Option.some.inj h]
        simp

lemma mergePrev_shape (A C : List VirtualMemoryArea) (w : VirtualMemoryArea)
    (m' : List VirtualMemoryArea) (i' : Nat)
    (h : mergePrev (A ++ w :: C) A.length = some (m', i')) :
    (m' = A ++ w :: C ∧ i' = A.length ∧ prevNotMerge A w) ∨
    (∃ A2 p, A = A2 ++ [p] ∧ CanBeMergedWith p w = some true ∧
      m' = A2 ++ mergedVMA p w :: C ∧ i' = A2.length) := by
  unfold mergePrev at h
  by_cases hA : A.length = 0
  · rw [if_pos hA] at h
    have h2 := Option.some.inj h
    injection h2 with hl hr
    left
    refine ⟨hl.symm, hr.symm, ?_⟩
    intro p hp
    rw [List.length_eq_zero.mp hA] at hp
    simp at hp
  · rw [if_neg hA] at h
    obtain ⟨A2, p, rfl⟩ : ∃ A2 p, A = A2 ++ [p] := by
      rcases List.eq_nil_or_concat' A with rfl | ⟨A2, p, rfl⟩
      · exact absurd rfl hA
      · exact ⟨A2, p, rfl⟩
    have hlen : (A2 ++ [p]).length = A2.length + 1 := by simp
    rw [hlen, Nat.add_sub_cancel] at h
    rw [show (A2 ++ [p]) ++ w :: C = A2 ++ p :: (w :: C) by simp] at h
    rw [getElem?_append_length, getElem?_append_length_succ, List.getElem?_cons_zero] at h
    rcases hm : CanBeMergedWith p w with _ | hb
    · simp only [hm] at h
      exact Option.noConfusion h
    · match hb with
      | false =>
        simp only [hm] at h
        have h2 := Option.some.inj h
        injection h2 with hl hr
        left
        refine ⟨?_, ?_, ?_⟩
        · rw [← hl]
          simp
        · rw [← hr, hlen]
        · intro q hq
          rw [List.getLast?_concat] at hq
          simp only [Option.mem_def, Option.some.injEq] at hq
          subst hq
          exact hm
      | true =>
        simp only [hm] at h
        have h2 := Option.some.inj h
        injection h2 with hl hr
        right
        refine ⟨A2, p, rfl, hm, ?_, ?_⟩
        · rw [← hl]
          rw [set_append_length]
          rw [show A2 ++ mergedVMA p w :: w :: C = (A2 ++ [mergedVMA p w]) ++ w :: C by simp,
            show A2.length + 1 = (A2 ++ [mergedVMA p w]).length by simp,
            eraseIdx_append_length]
          simp
        · rw [← hr]

lemma mergeAdjacent_shape (A B : List VirtualMemoryArea) (v : VirtualMemoryArea)
    (m' : List VirtualMemoryArea) (i' : Nat)
    (h : MergeAdjacent (A ++ v :: B) A.length = some (m', i')) :
    ∃ w C, ((w = v ∧ C = B ∧ nextNotMerge v B) ∨
        (∃ b B2, B = b :: B2 ∧ CanBeMergedWith v b = some true ∧ C = B2 ∧
          w = mergedVMA v b)) ∧
      ((m' = A ++ w :: C ∧ i' = A.length ∧ prevNotMerge A w) ∨
        (∃ A2 p, A = A2 ++ [p] ∧ CanBeMergedWith p w = some true ∧
          m' = A2 ++ mergedVMA p w :: C ∧ i' = A2.length)) := by
  unfold MergeAdjacent at h
  rcases hn : mergeNext (A ++ v :: B) A.length with _ | m1
  · rw [hn] at h
    exact Option.noConfusion h
  · rw [hn] at h
    rcases mergeNext_shape A B v m1 hn with ⟨rfl, hnm⟩ | ⟨b, B2, rfl, hm, rfl⟩
    · exact ⟨v, B, Or.inl ⟨rfl, rfl, hnm⟩, mergePrev_shape A B v m' i' h⟩
    · exact ⟨mergedVMA v b, B2, Or.inr ⟨b, B2, rfl, hm, rfl, rfl⟩,
        mergePrev_shape A B2 (mergedVMA v b) m' i' h⟩

lemma chain_set_same (A B : List VirtualMemoryArea) (x y : VirtualMemoryArea)
    (hbase : y.base = x.base) (hsize : y.size = x.size)
    (h : List.Chain' Adj (A ++ x :: B)) : List.Chain' Adj (A ++ y :: B) := by
  rw [List.chain'_append] at h ⊢
  refine ⟨h.1, ?_, ?_⟩
  · have hx := h.2.1
    rcases B with _ | ⟨b, B2⟩
    · simp
    · rw [List.chain'_cons] at hx ⊢
      refine ⟨?_, hx.2⟩
      have := hx.1
      unfold Adj at this ⊢
      omega
  · intro l hl yy hyy
    have h2 := h.2.2 l hl x (by simp)
    simp only [List.head?_cons, Option.mem_def, Option.some.injEq] at hyy
    subst hyy
    unfold Adj at h2 ⊢
    omega

lemma chain_join2 (A : List VirtualMemoryArea) (x y : VirtualMemoryArea)
    (C : List VirtualMemoryArea) (j : VirtualMemoryArea) (hjb : j.base = x.base)
    (hje : j.base + j.size = y.base + y.size)
    (h : List.Chain' Adj (A ++ x :: y :: C)) : List.Chain' Adj (A ++ j :: C) := by
  rw [List.chain'_append] at h ⊢
  refine ⟨h.1, ?_, ?_⟩
  · have hx := h.2.1
    rw [List.chain'_cons] at hx
    rcases C with _ | ⟨c, C2⟩
    · simp
    · have hyc := List.chain'_cons.mp hx.2
      rw [List.chain'_cons]
      refine ⟨?_, hyc.2⟩
      have := hyc.1
      unfold Adj at this ⊢
      omega
  · intro l hl jj hjj
    have h2 := h.2.2 l hl x (by simp)
    simp only [List.head?_cons, Option.mem_def, Option.some.injEq] at hjj
    subst hjj
    unfold Adj at h2 ⊢
    omega

/-- Eliminator for a successful `MapMemoryRegion`: alignment held and the
result is the pointwise update. -/
lemma mapMemoryRegion_elim (pt pt2 : PageTable) (base size target backing : Nat)
    (h : MapMemoryRegion pt base size target backing = some pt2) :
    size % page_size = 0 ∧ base % page_size = 0 ∧
      base / page_size + size / page_size ≤ num_pages ∧
      ∀ p, pt2.attributes p =
          (if base / page_size ≤ p ∧ p < base / page_size + size / page_size then .Memory
            else pt.attributes p) ∧
        pt2.pointers p =
          (if base / page_size ≤ p ∧ p < base / page_size + size / page_size then
            (if target = 0 then 0 else target + (p - base / page_size) * page_size)
          else pt.pointers p) ∧
        pt2.backing_addr p =
          (if base / page_size ≤ p ∧ p < base / page_size + size / page_size then
            (if target = 0 then backing else backing + (p - base / page_size) * page_size)
          else pt.backing_addr p) := by
  unfold MapMemoryRegion at h
  split at h
  · unfold MapPages at h
    split at h
    · rename_i hal hle
      refine ⟨hal.1, hal.2, hle, ?_⟩
      intro p
      rw [← Option.some.inj h]
      exact ⟨rfl, rfl, rfl⟩
    · exact Option.noConfusion h
  · exact Option.noConfusion h

/-- Eliminator for a successful `Allocate`: the VMA at the handle, the
page-table update on its pages, and the merge step. -/
lemma allocate_elim (m : List VirtualMemoryArea) (pt : PageTable) (i : Nat)
    (m2 : List VirtualMemoryArea) (pt2 : PageTable) (i2 : Nat)
    (h : Allocate m pt i = some (m2, pt2, i2)) :
    ∃ vma, m[i]? = some vma ∧
      UpdatePageTableForVMA pt
        { vma with ty := .Allocated, backing_addr := 0, backing_memory := 0 } = some pt2 ∧
      MergeAdjacent
        (m.set i { vma with ty := .Allocated, backing_addr := 0, backing_memory := 0 }) i =
        some (m2, i2) := by
  unfold Allocate at h
  rcases hv : m[i]? with _ | vma
  · rw [hv] at h
    exact Option.noConfusion h
  · rw [hv] at h
    simp only [] at h
    refine ⟨vma, rfl, ?_⟩
    rcases hu : UpdatePageTableForVMA pt
        { vma with ty := .Allocated, backing_addr := 0, backing_memory := 0 } with _ | ptu
    · rw [hu] at h
      exact Option.noConfusion h
    · rw [hu] at h
      simp only [] at h
      rcases hg : MergeAdjacent
          (m.set i { vma with ty := .Allocated, backing_addr := 0, backing_memory := 0 }) i
          with _ | ⟨mr, ir⟩
      · rw [hg] at h
        exact Option.noConfusion h
      · rw [hg] at h
        simp only [] at h
        have h2 := Option.some.inj h
        injection h2 with hl hr
        injection hr with hr1 hr2
        exact ⟨by rw [hr1], by rw [hl, hr2]⟩

/-- The page-table effect of `Allocate` on the backing-address array:
every write stores 0, the pages of the allocated VMA are all written, and
the alignment asserts held. -/
lemma allocate_pt_backing (pt pt2 : PageTable) (vma : VirtualMemoryArea)
    (h : UpdatePageTableForVMA pt
      { vma with ty := .Allocated, backing_addr := 0, backing_memory := 0 } = some pt2) :
    vma.base % page_size = 0 ∧ vma.size % page_size = 0 ∧
    (∀ pg, pt2.backing_addr pg = 0 ∨ pt2.backing_addr pg = pt.backing_addr pg) ∧
    (∀ pg, vma.base ≤ pg * page_size → pg * page_size < vma.base + vma.size →
      pt2.backing_addr pg = 0) := by
  rw [updatePageTable_allocated_eq _ _ rfl] at h
  obtain ⟨hals, halb, _, hpt⟩ := mapMemoryRegion_elim pt pt2 vma.base vma.size 0 0 h
  refine ⟨halb, hals, ?_, ?_⟩
  · intro pg
    have := (hpt pg).2.2
    rw [this]
    split
    · left
      rw [if_pos rfl]
    · right
      rfl
  · intro pg h1 h2
    have hB : vma.base / page_size * page_size = vma.base :=
      Nat.div_mul_cancel (Nat.dvd_of_mod_eq_zero halb)
    have hS : vma.size / page_size * page_size = vma.size :=
      Nat.div_mul_cancel (Nat.dvd_of_mod_eq_zero hals)
    have hps : 0 < page_size := page_size_pos
    have hlo : vma.base / page_size ≤ pg := by
      by_contra hcon
      have : pg + 1 ≤ vma.base / page_size := by omega
      have := Nat.mul_le_mul_right page_size this
      rw [Nat.add_mul, Nat.one_mul] at this
      omega
    have hhi : pg < vma.base / page_size + vma.size / page_size := by
      by_contra hcon
      have : vma.base / page_size + vma.size / page_size ≤ pg := by omega
      have := Nat.mul_le_mul_right page_size this
      rw [Nat.add_mul] at this
      omega
    have := (hpt pg).2.2
    rw [this, if_pos ⟨hlo, hhi⟩, if_pos rfl]

instance (a b : VirtualMemoryArea) : Decidable (Adj a b) :=
  inferInstanceAs (Decidable (a.base + a.size = b.base))

lemma take_append_self {α : Type} (A B : List α) : (A ++ B).take A.length = A := by
  induction A with
  | nil => rfl
  | cons a A ih => simpa using ih

lemma set_past_length {α : Type} (m : List α) (j : Nat) (x : α) (h : m.length ≤ j) :
    m.set j x = m := by
  induction m generalizing j with
  | nil => rfl
  | cons a t ih =>
    match j with
    | 0 => simp at h
    | j + 1 =>
      simp only [List.set_cons_succ]
      rw [ih j (by simpa using h)]

lemma take_set {α : Type} (m : List α) (j : Nat) (x : α) :
    (m.set j x).take j = m.take j := by
  induction m generalizing j with
  | nil => rfl
  | cons a t ih =>
    match j with
    | 0 => rfl
    | j + 1 =>
      simp only [List.set_cons_succ, List.take_succ_cons]
      rw [ih j]

lemma drop_set {α : Type} (m : List α) (j : Nat) (x : α) :
    (m.set j x).drop (j + 1) = m.drop (j + 1) := by
  induction m generalizing j with
  | nil => rfl
  | cons a t ih =>
    match j with
    | 0 => rfl
    | j + 1 =>
      simp only [List.set_cons_succ, List.drop_succ_cons]
      exact ih j

/-- Replacing the element before a common suffix by one with the same end
preserves the end of coverage. -/
lemma coverEnd_mid (A A' : List VirtualMemoryArea) (x y : VirtualMemoryArea)
    (B : List VirtualMemoryArea) (hxy : x.base + x.size = y.base + y.size) :
    coverEnd (A ++ x :: B) = coverEnd (A' ++ y :: B) := by
  rw [coverEnd_append_cons, coverEnd_append_cons A' y B]
  rcases B with _ | ⟨b, B2⟩
  · have h1 : coverEnd [x] = x.base + x.size := coverEnd_concat [] x
    have h2 : coverEnd [y] = y.base + y.size := coverEnd_concat [] y
    rw [h1, h2, hxy]
  · rw [show x :: b :: B2 = [x] ++ b :: B2 from rfl, coverEnd_append_cons,
      show y :: b :: B2 = [y] ++ b :: B2 from rfl, coverEnd_append_cons]

/-- One past the marked element, the frontier is that element's end. -/
lemma frontier_succ (A' : List VirtualMemoryArea) (w : VirtualMemoryArea)
    (C' : List VirtualMemoryArea) (hch : List.Chain' Adj (A' ++ w :: C')) :
    frontierOf (A' ++ w :: C') (A'.length + 1) = w.base + w.size := by
  unfold frontierOf
  rw [getElem?_append_length_succ]
  rcases C' with _ | ⟨c, C2⟩
  · simp only [List.getElem?_nil]
    exact coverEnd_concat A' w
  · simp only [List.getElem?_cons_zero]
    have hadj : Adj w c := by
      have h2 := (List.chain'_append.mp hch).2.1
      exact (List.chain'_cons.mp h2).1
    exact hadj.symm

/-- Splitting one chain element into two contiguous halves with the same
overall span preserves adjacency of the whole chain. -/
lemma chain_split2 (A : List VirtualMemoryArea) (x l r : VirtualMemoryArea)
    (B : List VirtualMemoryArea) (hlb : l.base = x.base) (hadj : Adj l r)
    (hre : r.base + r.size = x.base + x.size)
    (h : List.Chain' Adj (A ++ x :: B)) : List.Chain' Adj (A ++ l :: r :: B) := by
  rw [List.chain'_append] at h ⊢
  refine ⟨h.1, ?_, ?_⟩
  · rw [List.chain'_cons]
    refine ⟨hadj, ?_⟩
    have hx := h.2.1
    rcases B with _ | ⟨b, B2⟩
    · simp
    · rw [List.chain'_cons] at hx ⊢
      refine ⟨?_, hx.2⟩
      have := hx.1
      unfold Adj at this ⊢
      omega
  · intro a ha z hz
    have h2 := h.2.2 a ha x (by simp)
    simp only [List.head?_cons, Option.mem_def, Option.some.injEq] at hz
    subst hz
    unfold Adj at h2 ⊢
    omega

/-- `m1` refines `m`: every VMA of `m1` is a same-typed sub-range of a VMA
of `m`. Splitting produces refinements; refinement preserves `AP`. -/
def refines (m1 m : List VirtualMemoryArea) : Prop :=
  ∀ v' ∈ m1, ∃ v ∈ m, v'.ty = v.ty ∧ v.base ≤ v'.base ∧
    v'.base + v'.size ≤ v.base + v.size

lemma refines_refl (m : List VirtualMemoryArea) : refines m m := by
  intro v hv
  exact ⟨v, hv, rfl, Nat.le_refl _, Nat.le_refl _⟩

lemma refines_trans (m2 m1 m : List VirtualMemoryArea)
    (h21 : refines m2 m1) (h10 : refines m1 m) : refines m2 m := by
  intro v hv
  obtain ⟨u, hu, ht, hb, he⟩ := h21 v hv
  obtain ⟨w, hw, ht2, hb2, he2⟩ := h10 u hu
  exact ⟨w, hw, ht.trans ht2, by omega, by omega⟩

lemma AP_of_refines (m1 m : List VirtualMemoryArea) (pt : PageTable)
    (href : refines m1 m) (hap : AP m pt) : AP m1 pt := by
  intro v hv hty pg h1 h2
  obtain ⟨u, hu, ht, hb, he⟩ := href v hv
  exact hap u hu (ht ▸ hty) pg (by omega) (by omega)

/-- Pure shape of a successful `SplitVMA`: the split element, its position,
the bounds checks, and the resulting list. -/
lemma splitVMA_shape (m : List VirtualMemoryArea) (i off : Nat)
    (m1 : List VirtualMemoryArea) (j : Nat)
    (h : SplitVMA m i off = some (m1, j)) :
    ∃ A old B, m = A ++ old :: B ∧ A.length = i ∧ 0 < off ∧ off < old.size ∧
      CanBeMergedWith { old with size := off } (splitRight old off) = some true ∧
      m1 = A ++ { old with size := off } :: splitRight old off :: B ∧ j = i + 1 := by
  unfold SplitVMA at h
  rcases hv : m[i]? with _ | old
  · rw [hv] at h
    exact Option.noConfusion h
  · rw [hv] at h
    simp only [] at h
    split at h
    · rename_i hbounds
      split at h
      · rename_i hcbm
        have h2 := Option.some.inj h
        injection h2 with hl hr
        obtain ⟨A, B, hdec, hA⟩ := list_decomp m i old hv
        refine ⟨A, old, B, hdec, hA, hbounds.2, hbounds.1, hcbm, ?_, hr.symm⟩
        rw [← hl, hdec, ← hA, set_append_length, insertAt_append_length]
      · exact Option.noConfusion h
    · exact Option.noConfusion h

/-- `SplitVMA` preserves the chain, positivity and coverage, and refines
the original map. -/
lemma splitVMA_preserves (m : List VirtualMemoryArea) (i off : Nat)
    (m1 : List VirtualMemoryArea) (j : Nat)
    (hch : List.Chain' Adj m) (hpos : ∀ v ∈ m, 0 < v.size)
    (h : SplitVMA m i off = some (m1, j)) :
    List.Chain' Adj m1 ∧ (∀ v ∈ m1, 0 < v.size) ∧ coverEnd m1 = coverEnd m ∧
      refines m1 m := by
  obtain ⟨A, old, B, hdec, hA, hoff, hlt, _, hm1, _⟩ := splitVMA_shape m i off m1 j h
  have hlb : ({ old with size := off } : VirtualMemoryArea).base = old.base := rfl
  have hadj : Adj { old with size := off } (splitRight old off) := by
    unfold Adj
    rw [splitRight_base]
  have hre : (splitRight old off).base + (splitRight old off).size =
      old.base + old.size := by
    rw [splitRight_base, splitRight_size]
    omega
  refine ⟨?_, ?_, ?_, ?_⟩
  · rw [hm1]
    exact chain_split2 A old _ _ B hlb hadj hre (hdec ▸ hch)
  · intro v hv
    rw [hm1] at hv
    simp only [List.mem_append, List.mem_cons] at hv
    rcases hv with hv | rfl | rfl | hv
    · exact hpos v (by rw [hdec]; simp [hv])
    · exact hoff
    · rw [splitRight_size]
      omega
    · exact hpos v (by rw [hdec]; simp [hv])
  · rw [hm1, hdec]
    rw [show A ++ { old with size := off } :: splitRight old off :: B =
      (A ++ [{ old with size := off }]) ++ splitRight old off :: B by simp]
    exact coverEnd_mid _ A (splitRight old off) old B hre
  · intro v hv
    rw [hm1] at hv
    simp only [List.mem_append, List.mem_cons] at hv
    have hmem : ∀ u, u ∈ A ∨ u ∈ B → u ∈ m := by
      intro u hu
      rw [hdec]
      rcases hu with hu | hu <;> simp [hu]
    rcases hv with hv | rfl | rfl | hv
    · exact ⟨v, hmem v (Or.inl hv), rfl, Nat.le_refl _, Nat.le_refl _⟩
    · refine ⟨old, by rw [hdec]; simp, rfl, Nat.le_refl _, ?_⟩
      show old.base + off ≤ old.base + old.size
      omega
    · refine ⟨old, by rw [hdec]; simp, splitRight_ty old off, ?_, ?_⟩
      · rw [splitRight_base]
        omega
      · rw [splitRight_base, splitRight_size]
        omega
    · exact ⟨v, hmem v (Or.inr hv), rfl, Nat.le_refl _, Nat.le_refl _⟩

/-- One pass of the unmap loop body: `Allocate` rewrites the target entry
to `Allocated` (possibly absorbed into neighbours by the merge), keeps the
chain, sizes, and coverage intact, writes only zeros into the page table's
backing array, and zeroes the whole span of the resulting entry. -/
lemma allocate_step (m : List VirtualMemoryArea) (pt : PageTable) (i : Nat)
    (vma : VirtualMemoryArea) (m2r : List VirtualMemoryArea) (pt2r : PageTable) (i2 : Nat)
    (hm : m[i]? = some vma)
    (ha : Allocate m pt i = some (m2r, pt2r, i2))
    (hch : List.Chain' Adj m)
    (hpos : ∀ v ∈ m, 0 < v.size) :
    ∃ A' w C', m2r = A' ++ w :: C' ∧ i2 = A'.length ∧
      w.ty = .Allocated ∧
      w.base ≤ vma.base ∧ vma.base + vma.size ≤ w.base + w.size ∧
      (∀ v ∈ A', v ∈ m.take i) ∧
      (∀ v ∈ C', v ∈ m.drop (i + 1)) ∧
      List.Chain' Adj m2r ∧
      (∀ v ∈ m2r, 0 < v.size) ∧
      coverEnd m2r = coverEnd m ∧
      (∀ pg, pt2r.backing_addr pg = 0 ∨ pt2r.backing_addr pg = pt.backing_addr pg) ∧
      (AP m pt → ∀ pg, w.base ≤ pg * page_size →
        pg * page_size < w.base + w.size → pt2r.backing_addr pg = 0) := by
  obtain ⟨vma', hv', hupd, hmerge⟩ := allocate_elim m pt i m2r pt2r i2 ha
  rw [hm] at hv'
  cases Option.some.inj hv'
  obtain ⟨A, B, hdec, hA⟩ := list_decomp m i vma hm
  rw [hdec, ← hA, set_append_length] at hmerge
  obtain ⟨w1, C1, hcase1, hcase2⟩ := mergeAdjacent_shape A B _ m2r i2 hmerge
  obtain ⟨halb, hals, h9, hspan⟩ := allocate_pt_backing pt pt2r vma hupd
  have hch2 : List.Chain' Adj
      (A ++ { vma with ty := .Allocated, backing_addr := 0, backing_memory := 0 } :: B) :=
    chain_set_same A B vma _ rfl rfl (hdec ▸ hch)
  have htake : m.take i = A := by
    rw [hdec, ← hA]
    exact take_append_self A _
  have hdrop : m.drop (i + 1) = B := by
    rw [hdec, ← hA]
    exact drop_append_length A B vma
  have hw1 : w1.ty = .Allocated ∧ w1.base = vma.base ∧ vma.size ≤ w1.size ∧
      (∀ v ∈ C1, v ∈ B) ∧ List.Chain' Adj (A ++ w1 :: C1) ∧
      coverEnd (A ++ w1 :: C1) = coverEnd m ∧ 0 < w1.size ∧
      (AP m pt → ∀ pg, w1.base ≤ pg * page_size →
        pg * page_size < w1.base + w1.size → pt2r.backing_addr pg = 0) := by
    rcases hcase1 with ⟨hweq, hceq, hnm⟩ | ⟨b, B2, hBeq, hcbm, hceq, hweq⟩
    · subst hweq
      have hceq2 := hceq.symm
      subst hceq2
      refine ⟨rfl, rfl, Nat.le_refl _, fun v hv => hv, hch2, ?_, hpos vma
        (by rw [hdec]; simp), ?_⟩
      · rw [show coverEnd m = coverEnd (A ++ vma :: B) by rw [hdec]]
        exact coverEnd_mid A A _ vma B rfl
      · intro _ pg h1 h2
        exact hspan pg h1 h2
    · subst hBeq
      have hceq2 := hceq.symm
      subst hceq2
      subst hweq
      obtain ⟨hadjb, htyb, _, _⟩ := canBeMerged_true _ b hcbm
      have hbty : b.ty = .Allocated := htyb.symm
      have hbm : b ∈ m := by
        rw [hdec]
        simp
      refine ⟨mergedVMA_ty _ b, mergedVMA_base _ b, ?_, fun v hv => List.mem_cons_of_mem b hv,
        ?_, ?_, ?_, ?_⟩
      · rw [mergedVMA_size]
        show vma.size ≤ vma.size + b.size
        omega
      · exact chain_join2 A _ b B2 _ (mergedVMA_base _ b) (mergedVMA_end _ b hadjb) hch2
      · rw [show coverEnd m = coverEnd ((A ++ [vma]) ++ b :: B2) by rw [hdec]; simp]
        exact coverEnd_mid A (A ++ [vma]) _ b B2 (mergedVMA_end _ b hadjb)
      · rw [mergedVMA_size]
        have := hpos b hbm
        show 0 < vma.size + b.size
        omega
      · intro hap pg h1 h2
        rw [mergedVMA_base] at h1
        rw [mergedVMA_end _ b hadjb] at h2
        by_cases hcut : pg * page_size < vma.base + vma.size
        · exact hspan pg h1 hcut
        · have hb0 : pt.backing_addr pg = 0 := by
            refine hap b hbm hbty pg ?_ h2
            have : vma.base + vma.size = b.base := hadjb
            omega
          rcases h9 pg with h0 | hp
          · exact h0
          · rw [hp, hb0]
  obtain ⟨hw1ty, hw1b, hw1s, hC1, hch3, hcov3, hw1pos, hw1span⟩ := hw1
  rcases hcase2 with ⟨hmeq, hieq, hpm⟩ | ⟨A2, p, hAeq, hcbm2, hmeq, hieq⟩
  · subst hmeq
    subst hieq
    refine ⟨A, w1, C1, rfl, rfl, hw1ty, by omega, by omega, ?_, ?_, hch3, ?_, hcov3, h9, ?_⟩
    · intro v hv
      rw [htake]
      exact hv
    · intro v hv
      rw [hdrop]
      exact hC1 v hv
    · intro v hv
      simp only [List.mem_append, List.mem_cons] at hv
      rcases hv with hv | rfl | hv
      · exact hpos v (by rw [hdec]; simp [hv])
      · exact hw1pos
      · exact hpos v (by rw [hdec]; simp [hC1 v hv])
    · exact hw1span
  · subst hAeq
    subst hmeq
    subst hieq
    obtain ⟨hadjp, htyp, _, _⟩ := canBeMerged_true p w1 hcbm2
    have hpty : p.ty = .Allocated := htyp.trans hw1ty
    have hpm2 : p ∈ m := by
      rw [hdec]
      simp
    refine ⟨A2, mergedVMA p w1, C1, rfl, rfl, by rw [mergedVMA_ty]; exact hpty, ?_, ?_,
      ?_, ?_, ?_, ?_, ?_, h9, ?_⟩
    · rw [mergedVMA_base]
      have : p.base + p.size = w1.base := hadjp
      omega
    · rw [mergedVMA_end p w1 hadjp]
      omega
    · intro v hv
      rw [htake]
      exact List.mem_append_left _ hv
    · intro v hv
      rw [hdrop]
      exact hC1 v hv
    · refine chain_join2 A2 p w1 C1 _ (mergedVMA_base p w1) (mergedVMA_end p w1 hadjp) ?_
      rw [show A2 ++ p :: w1 :: C1 = (A2 ++ [p]) ++ w1 :: C1 by simp]
      exact hch3
    · intro v hv
      simp only [List.mem_append, List.mem_cons] at hv
      rcases hv with hv | rfl | hv
      · exact hpos v (by rw [hdec]; simp [hv])
      · rw [mergedVMA_size]
        have := hpos p hpm2
        omega
      · exact hpos v (by rw [hdec]; simp [hC1 v hv])
    · rw [← hcov3]
      exact coverEnd_mid A2 (A2 ++ [p]) _ w1 C1 (mergedVMA_end p w1 hadjp)
    · intro hap pg h1 h2
      rw [mergedVMA_base] at h1
      rw [mergedVMA_end p w1 hadjp] at h2
      by_cases hcut : pg * page_size < w1.base
      · have hp0 : pt.backing_addr pg = 0 := by
          refine hap p hpm2 hpty pg h1 ?_
          have : p.base + p.size = w1.base := hadjp
          omega
        rcases h9 pg with h0 | hpp
        · exact h0
        · rw [hpp, hp0]
      · exact hw1span hap pg (by omega) h2

/-- The while-loop of `UnmapRange` leaves every VMA overlapping
`[tgt, tend)` in state `Allocated`, provided the part of the map before
the loop index only holds VMAs that end at or before `tgt` or are already
`Allocated`. -/
lemma unmapLoop_allocates (tgt : Nat) :
    ∀ fuel m pt i tend m2 pt2,
      unmapLoop fuel m pt i tend = some (m2, pt2) →
      List.Chain' Adj m →
      (∀ v ∈ m, 0 < v.size) →
      (∀ v ∈ m.take i, v.base + v.size ≤ tgt ∨ v.ty = .Allocated) →
      ∀ v ∈ m2, tgt < v.base + v.size → v.base < tend → v.ty = .Allocated := by
  intro fuel
  induction fuel with
  | zero =>
    intro m pt i tend m2 pt2 h
    rw [show unmapLoop 0 m pt i tend = none from rfl] at h
    exact Option.noConfusion h
  | succ fuel ih =>
    intro m pt i tend m2 pt2 h hch hpos hinv
    unfold unmapLoop at h
    rcases hmi : m[i]? with _ | vma
    · rw [hmi] at h
      simp only [] at h
      have h2 := Option.some.inj h
      injection h2 with hl hr
      subst hl
      intro v hv hlt1 hlt2
      have hlen : m.length ≤ i := List.getElem?_eq_none_iff.mp hmi
      have htk : m.take i = m := List.take_of_length_le hlen
      rcases hinv v (by rw [htk]; exact hv) with hle | hal
      · omega
      · exact hal
    · rw [hmi] at h
      simp only [] at h
      split at h
      · rcases hal : Allocate m pt i with _ | ⟨m2r, pt2r, i2⟩
        · rw [hal] at h
          exact Option.noConfusion h
        · rw [hal] at h
          obtain ⟨A', w, C', hm2r, hi2, hwty, hwb, hwe, hA', hC', hch', hpos', hcov',
            h9', hspan'⟩ := allocate_step m pt i vma m2r pt2r i2 hmi hal hch hpos
          refine ih m2r pt2r (i2 + 1) tend m2 pt2 h hch' hpos' ?_
          intro v hv
          rw [hm2r, hi2, take_append_length] at hv
          rcases List.mem_append.mp hv with hv | hv
          · exact hinv v (hA' v hv)
          · rw [List.mem_singleton.mp hv]
            exact Or.inr hwty
      · rename_i hnlt
        have h2 := Option.some.inj h
        injection h2 with hl hr
        subst hl
        intro v hv hlt1 hlt2
        obtain ⟨A, B, hdec, hA⟩ := list_decomp m i vma hmi
        rw [hdec] at hv
        rcases List.mem_append.mp hv with hvA | hvB
        · rcases hinv v (by rw [hdec, ← hA, take_append_self]; exact hvA) with hle | hal2
          · omega
          · exact hal2
        · rcases List.mem_cons.mp hvB with rfl | hvB2
          · omega
          · have hchsuf : List.Chain' Adj (vma :: B) := by
              rw [hdec] at hch
              exact (List.chain'_append.mp hch).2.1
            have := chain_head_le vma B hchsuf v hvB2
            omega

/-- The while-loop of `UnmapRange` zeroes the backing-address slot of
every page between `tgt` and the end of the range (capped by the end of
coverage), provided all pages up to the loop frontier are already zeroed
and `Allocated` VMAs have zeroed pages. -/
lemma unmapLoop_backing (tgt : Nat) :
    ∀ fuel m pt i tend m2 pt2,
      unmapLoop fuel m pt i tend = some (m2, pt2) →
      List.Chain' Adj m →
      (∀ v ∈ m, 0 < v.size) →
      AP m pt →
      (∀ pg, tgt ≤ pg * page_size → pg * page_size < frontierOf m i →
        pt.backing_addr pg = 0) →
      ∀ pg, tgt ≤ pg * page_size → pg * page_size < tend →
        pg * page_size < coverEnd m → pt2.backing_addr pg = 0 := by
  intro fuel
  induction fuel with
  | zero =>
    intro m pt i tend m2 pt2 h
    rw [show unmapLoop 0 m pt i tend = none from rfl] at h
    exact Option.noConfusion h
  | succ fuel ih =>
    intro m pt i tend m2 pt2 h hch hpos hap hcovd
    unfold unmapLoop at h
    rcases hmi : m[i]? with _ | vma
    · rw [hmi] at h
      simp only [] at h
      have h2 := Option.some.inj h
      injection h2 with hl hr
      subst hr
      intro pg h1 h2c h3
      refine hcovd pg h1 ?_
      unfold frontierOf
      rw [hmi]
      exact h3
    · rw [hmi] at h
      simp only [] at h
      split at h
      · rcases hal : Allocate m pt i with _ | ⟨m2r, pt2r, i2⟩
        · rw [hal] at h
          exact Option.noConfusion h
        · rw [hal] at h
          obtain ⟨A', w, C', hm2r, hi2, hwty, hwb, hwe, hA', hC', hch', hpos', hcov',
            h9', hspan'⟩ := allocate_step m pt i vma m2r pt2r i2 hmi hal hch hpos
          have hap' : AP m2r pt2r := by
            intro v hv hty pg hp1 hp2
            rw [hm2r] at hv
            rcases List.mem_append.mp hv with hv | hv
            · have hvm : v ∈ m := List.take_subset i m (hA' v hv)
              have h0 := hap v hvm hty pg hp1 hp2
              rcases h9' pg with hz | hp
              · exact hz
              · rw [hp]
                exact h0
            · rcases List.mem_cons.mp hv with rfl | hv2
              · exact hspan' hap pg hp1 hp2
              · have hvm : v ∈ m := List.drop_subset (i + 1) m (hC' v hv2)
                have h0 := hap v hvm hty pg hp1 hp2
                rcases h9' pg with hz | hp
                · exact hz
                · rw [hp]
                  exact h0
          have hcovd' : ∀ pg, tgt ≤ pg * page_size →
              pg * page_size < frontierOf m2r (i2 + 1) → pt2r.backing_addr pg = 0 := by
            intro pg h1 h2c
            rw [hm2r, hi2, frontier_succ A' w C' (hm2r ▸ hch')] at h2c
            by_cases hcut : pg * page_size < vma.base
            · have hfr : frontierOf m i = vma.base := by
                unfold frontierOf
                rw [hmi]
              have h0 := hcovd pg h1 (by rw [hfr]; exact hcut)
              rcases h9' pg with hz | hp
              · exact hz
              · rw [hp]
                exact h0
            · exact hspan' hap pg (by omega) h2c
          have hrec := ih m2r pt2r (i2 + 1) tend m2 pt2 h hch' hpos' hap' hcovd'
          intro pg h1 h2c h3
          exact hrec pg h1 h2c (by rw [hcov']; exact h3)
      · rename_i hnlt
        have h2 := Option.some.inj h
        injection h2 with hl hr
        subst hr
        intro pg h1 h2c h3
        refine hcovd pg h1 ?_
        have hfr : frontierOf m i = vma.base := by
          unfold frontierOf
          rw [hmi]
        rw [hfr]
        omega

/-- The begin-side split of `CarveVMARange`: on success the entry at the
returned index starts exactly at `t`. -/
lemma carve_begin_split (m : List VirtualMemoryArea) (ib t : Nat)
    (bv : VirtualMemoryArea) (mB : List VirtualMemoryArea) (ibB : Nat)
    (hch : List.Chain' Adj m) (hpos : ∀ v ∈ m, 0 < v.size)
    (hbv : m[ib]? = some bv)
    (hsp : SplitVMA m ib (t - bv.base) = some (mB, ibB)) :
    List.Chain' Adj mB ∧ (∀ v ∈ mB, 0 < v.size) ∧ coverEnd mB = coverEnd m ∧
      refines mB m ∧ ∃ vi, mB[ibB]? = some vi ∧ vi.base = t := by
  obtain ⟨hchB, hposB, hcovB, hrefB⟩ := splitVMA_preserves m ib _ mB ibB hch hpos hsp
  obtain ⟨A, old, B, hdec, hA, hoff, hlt, _, hmB, hjB⟩ := splitVMA_shape m ib _ mB ibB hsp
  have hold : old = bv := by
    rw [hdec, ← hA, getElem?_append_length] at hbv
    exact Option.some.inj hbv
  subst hold
  refine ⟨hchB, hposB, hcovB, hrefB, splitRight old (t - old.base), ?_, ?_⟩
  · rw [hmB, hjB, ← hA, getElem?_append_length_succ]
    simp
  · rw [splitRight_base]
    omega

/-- The end-side split of `CarveVMARange`: it cannot move or reshape the
entry at an index whose VMA starts strictly before the split point. -/
lemma carve_end_split (mI : List VirtualMemoryArea) (ie tend : Nat)
    (ev : VirtualMemoryArea) (iI t : Nat) (vi : VirtualMemoryArea)
    (m2S : List VirtualMemoryArea) (j2 : Nat)
    (hch : List.Chain' Adj mI) (hpos : ∀ v ∈ mI, 0 < v.size)
    (hvi : mI[iI]? = some vi) (hvib : vi.base = t) (htlt : t < tend)
    (hev : mI[ie]? = some ev)
    (hsp : SplitVMA mI ie (tend - ev.base) = some (m2S, j2)) :
    List.Chain' Adj m2S ∧ (∀ v ∈ m2S, 0 < v.size) ∧ coverEnd m2S = coverEnd mI ∧
      refines m2S mI ∧ ∃ vi', m2S[iI]? = some vi' ∧ vi'.base = t := by
  obtain ⟨hch2, hpos2, hcov2, href2⟩ := splitVMA_preserves mI ie _ m2S j2 hch hpos hsp
  obtain ⟨A, old, B, hdec, hA, hoff, hlt, _, hm2S, _⟩ := splitVMA_shape mI ie _ m2S j2 hsp
  have hold : old = ev := by
    rw [hdec, ← hA, getElem?_append_length] at hev
    exact Option.some.inj hev
  subst hold
  refine ⟨hch2, hpos2, hcov2, href2, ?_⟩
  rcases Nat.lt_trichotomy ie iI with hlt2 | heq | hgt
  · exfalso
    obtain ⟨A2, B2, hdec2, hA2⟩ := list_decomp mI iI vi hvi
    have hevA2 : old ∈ A2 := by
      have : mI[ie]? = A2[ie]? := by
        rw [hdec2]
        exact getElem?_append_lt A2 (vi :: B2) ie (by omega)
      rw [this] at hev
      exact List.getElem?_mem hev
    have hend := prefix_end_le A2 vi B2 (hdec2 ▸ hch) old hevA2
    omega
  · refine ⟨{ old with size := tend - old.base }, ?_, ?_⟩
    · rw [hm2S, ← heq, ← hA]
      exact getElem?_append_length A _ _
    · have hvo : vi = old := by
        rw [heq, hvi] at hev
        exact Option.some.inj hev
      show old.base = t
      rw [← hvo]
      exact hvib
  · refine ⟨vi, ?_, hvib⟩
    have h1 : m2S[iI]? = A[iI]? := by
      rw [hm2S]
      exact getElem?_append_lt A _ iI (by omega)
    have h2 : mI[iI]? = A[iI]? := by
      rw [hdec]
      exact getElem?_append_lt A _ iI (by omega)
    rw [h1, ← h2, hvi]

/-- Eliminator for a successful `CarveVMARange`: the carved map keeps the
chain, sizes and coverage, refines the original map, and the entry at the
returned index starts exactly at `t`. -/
lemma carveVMARange_facts (m : List VirtualMemoryArea) (t s : Nat)
    (m1 : List VirtualMemoryArea) (i : Nat)
    (hch : List.Chain' Adj m) (hpos : ∀ v ∈ m, 0 < v.size)
    (h : CarveVMARange m t s = some (m1, i)) :
    List.Chain' Adj m1 ∧ (∀ v ∈ m1, 0 < v.size) ∧ coverEnd m1 = coverEnd m ∧
      refines m1 m ∧ (∃ vi, m1[i]? = some vi ∧ vi.base = t) ∧
      t % page_size = 0 ∧ 0 < s := by
  unfold CarveVMARange at h
  simp only [] at h
  split at h
  · rename_i halign
    split at h
    · exact Option.noConfusion h
    · split at h
      · exact Option.noConfusion h
      · rcases hbv : m[FindVMA m t]? with _ | bv
        · rw [hbv] at h
          exact Option.noConfusion h
        · rw [hbv] at h
          simp only [] at h
          by_cases htb : t ≠ bv.base
          · rw [if_pos htb] at h
            rcases hspB : SplitVMA m (FindVMA m t) (t - bv.base) with _ | ⟨mB, ibB⟩
            · rw [hspB] at h
              exact Option.noConfusion h
            · rw [hspB] at h
              simp only [] at h
              obtain ⟨hchB, hposB, hcovB, hrefB, vi, hviB, hvibB⟩ :=
                carve_begin_split m (FindVMA m t) t bv mB ibB hch hpos hbv hspB
              split at h
              · have h2 := Option.some.inj h
                injection h2 with hl hr
                subst hl
                subst hr
                exact ⟨hchB, hposB, hcovB, hrefB, ⟨vi, hviB, hvibB⟩, halign.2.1, halign.2.2⟩
              · rcases hev : mB[FindVMA mB (t + s)]? with _ | ev
                · rw [hev] at h
                  exact Option.noConfusion h
                · rw [hev] at h
                  simp only [] at h
                  split at h
                  · rcases hspE : SplitVMA mB (FindVMA mB (t + s)) (t + s - ev.base)
                        with _ | ⟨m2S, j2⟩
                    · rw [hspE] at h
                      exact Option.noConfusion h
                    · rw [hspE] at h
                      simp only [] at h
                      have h2 := Option.some.inj h
                      injection h2 with hl hr
                      subst hl
                      subst hr
                      obtain ⟨hchS, hposS, hcovS, hrefS, vi', hviS, hvibS⟩ :=
                        carve_end_split mB (FindVMA mB (t + s)) (t + s) ev ibB t vi
                          m2S j2 hchB hposB hviB hvibB (by omega) hev hspE
                      exact ⟨hchS, hposS, hcovS.trans hcovB,
                        refines_trans _ _ _ hrefS hrefB, ⟨vi', hviS, hvibS⟩,
                        halign.2.1, halign.2.2⟩
                  · have h2 := Option.some.inj h
                    injection h2 with hl hr
                    subst hl
                    subst hr
                    exact ⟨hchB, hposB, hcovB, hrefB, ⟨vi, hviB, hvibB⟩,
                      halign.2.1, halign.2.2⟩
          · rw [if_neg htb] at h
            simp only [] at h
            have hbase : bv.base = t := by
              rw [not_not] at htb
              omega
            split at h
            · have h2 := Option.some.inj h
              injection h2 with hl hr
              subst hl
              subst hr
              exact ⟨hch, hpos, rfl, refines_refl m, ⟨bv, hbv, hbase⟩,
                halign.2.1, halign.2.2⟩
            · rcases hev : m[FindVMA m (t + s)]? with _ | ev
              · rw [hev] at h
                exact Option.noConfusion h
              · rw [hev] at h
                simp only [] at h
                split at h
                · rcases hspE : SplitVMA m (FindVMA m (t + s)) (t + s - ev.base)
                      with _ | ⟨m2S, j2⟩
                  · rw [hspE] at h
                    exact Option.noConfusion h
                  · rw [hspE] at h
                    simp only [] at h
                    have h2 := Option.some.inj h
                    injection h2 with hl hr
                    subst hl
                    subst hr
                    obtain ⟨hchS, hposS, hcovS, hrefS, vi', hviS, hvibS⟩ :=
                      carve_end_split m (FindVMA m (t + s)) (t + s) ev (FindVMA m t) t bv
                        m2S j2 hch hpos hbv hbase (by omega) hev hspE
                    exact ⟨hchS, hposS, hcovS, hrefS, ⟨vi', hviS, hvibS⟩,
                      halign.2.1, halign.2.2⟩
                · have h2 := Option.some.inj h
                  injection h2 with hl hr
                  subst hl
                  subst hr
                  exact ⟨hch, hpos, rfl, refines_refl m, ⟨bv, hbv, hbase⟩,
                    halign.2.1, halign.2.2⟩
  · exact Option.noConfusion h

/-- C5: UnmapRange(target, size) transitions every VMA covered by
[target, target+size) from Mapped to Allocated, never to Unmapped, so the
addresses remain reserved, and a subsequent MapBufferEx(cpu2, gpu, N) at
the same gpu address returns that same address whenever it completes. -/
theorem unmapRange_reserves_allocated
    (m : List VirtualMemoryArea) (pt : PageTable) (target size : Nat)
    (m2 : List VirtualMemoryArea) (pt2 : PageTable)
    (hch : List.Chain' Adj m) (hpos : ∀ v ∈ m, 0 < v.size)
    (h : UnmapRange m pt target size = some (m2, pt2)) :
    (∀ v ∈ m2, target < v.base + v.size → v.base < target + size →
      v.ty = .Allocated) ∧
    (∀ st : MMState, st.vma_map = m2 → st.page_table = pt2 →
      ∀ cpu2 n r st2, MapBufferExAt st cpu2 target n = some (r, st2) → r = target) := by
  constructor
  · unfold UnmapRange at h
    rcases hc : CarveVMARange m target size with _ | ⟨m1, i⟩
    · rw [hc] at h
      exact Option.noConfusion h
    · rw [hc] at h
      simp only [] at h
      rcases hl : unmapLoop (m1.length + 1) m1 pt i (target + size) with _ | ⟨m2l, pt2l⟩
      · rw [hl] at h
        exact Option.noConfusion h
      · rw [hl] at h
        simp only [] at h
        rcases hf : m2l[FindVMA m2l target]? with _ | vfin
        · rw [hf] at h
          exact Option.noConfusion h
        · rw [hf] at h
          simp only [] at h
          split at h
          · have h2 := Option.some.inj h
            injection h2 with hml hpl
            subst hml
            obtain ⟨hch1, hpos1, hcov1, href1, ⟨vi, hvi, hvib⟩, halT, hs⟩ :=
              carveVMARange_facts m target size m1 i hch hpos hc
            have hinv0 : ∀ v ∈ m1.take i,
                v.base + v.size ≤ target ∨ v.ty = .Allocated := by
              intro v hv
              obtain ⟨A, B, hdec, hA⟩ := list_decomp m1 i vi hvi
              rw [hdec, ← hA, take_append_self] at hv
              left
              have := prefix_end_le A vi B (hdec ▸ hch1) v hv
              omega
            exact unmapLoop_allocates target (m1.length + 1) m1 pt i (target + size)
              m2l pt2l hl hch1 hpos1 hinv0
          · exact Option.noConfusion h
  · intro st _ _ cpu2 n r st2 hmap
    unfold MapBufferExAt at hmap
    split at hmap
    · simp only [] at hmap
      rcases hmb : MapBackingMemory st.vma_map st.page_table target (st.busPtr cpu2)
          (alignUp n page_size) cpu2 with _ | ⟨mm, ptm, im⟩
      · rw [hmb] at hmap
        exact Option.noConfusion hmap
      · rw [hmb] at hmap
        simp only [] at hmap
        have h2 := Option.some.inj hmap
        injection h2 with hr1 hr2
        exact hr1.symm
    · exact Option.noConfusion hmap

/-- Boolean chain checker used to discharge `List.Chain'` hypotheses on
concrete maps by kernel evaluation (Mathlib's own instance is built by
tactics and does not reduce in the kernel). -/
def chainB (r : VirtualMemoryArea → VirtualMemoryArea → Prop) [DecidableRel r] :
    List VirtualMemoryArea → Bool
  | [] => true
  | [_] => true
  | a :: b :: t => decide (r a b) && chainB r (b :: t)

lemma chain'_of_chainB (r : VirtualMemoryArea → VirtualMemoryArea → Prop)
    [DecidableRel r] :
    ∀ l, chainB r l = true → List.Chain' r l
  | [] => fun _ => List.chain'_nil
  | [_] => fun _ => List.chain'_singleton _
  | a :: b :: t => fun h => by
    unfold chainB at h
    rw [Bool.and_eq_true] at h
    exact List.chain'_cons.mpr ⟨of_decide_eq_true h.1, chain'_of_chainB r (b :: t) h.2⟩

/-- Concrete pre-state for the C5 witness: one Mapped VMA over
[0, 0x2000) followed by the free remainder of the address space. -/
def cw5m : List VirtualMemoryArea :=
  [{ base := 0, size := 0x2000, ty := .Mapped, offset := 0,
     backing_memory := 0x100000, backing_addr := 0x200000 },
   { base := 0x2000, size := address_space_end - 0x2000 }]

/-- Page table for the C5 witness (contents are irrelevant to the claim). -/
def cw5pt : PageTable := ⟨fun _ => 0, fun _ => .Unmapped, fun _ => 0⟩

/-- Witness for C5: unmapping [0, 0x1000) of the concrete map succeeds and
every VMA overlapping the window is left `Allocated`. -/
theorem unmapRange_reserves_allocated_witness :
    ∃ p : List VirtualMemoryArea × PageTable,
      UnmapRange cw5m cw5pt 0 0x1000 = some p ∧
      ∀ v ∈ p.1, 0 < v.base + v.size → v.base < 0 + 0x1000 → v.ty = .Allocated := by
  have hs : (UnmapRange cw5m cw5pt 0 0x1000).isSome = true := by decide
  have heq : UnmapRange cw5m cw5pt 0 0x1000 =
      some ((UnmapRange cw5m cw5pt 0 0x1000).get hs) := (Option.some_get hs).symm
  refine ⟨(UnmapRange cw5m cw5pt 0 0x1000).get hs, heq, ?_⟩
  have hch : List.Chain' Adj cw5m := chain'_of_chainB Adj cw5m (by decide)
  exact (unmapRange_reserves_allocated cw5m cw5pt 0 0x1000 _ _
    hch (by decide) heq).1

lemma le_alignUp (v : Nat) : v ≤ alignUp v page_size := by
  unfold alignUp
  have hps : 0 < page_size := page_size_pos
  have hdm := Nat.div_add_mod (v + page_size - 1) page_size
  have hmlt : (v + page_size - 1) % page_size < page_size := Nat.mod_lt _ hps
  have hcm := Nat.mul_comm page_size ((v + page_size - 1) / page_size)
  omega

/-- C10: after UnmapBuffer(gpu_addr, size), GpuToCpuAddress returns none
on every address of [gpu_addr, gpu_addr + size): the unmap loop clears the
backing_addr of every covered page to 0, which GpuToCpuAddress treats as
absent; addresses past the 40-bit space already fail the validity check. -/
theorem unmapBuffer_gpuToCpuAddress_none
    (st : MMState) (gpu size r : Nat) (st2 : MMState)
    (hch : List.Chain' Adj st.vma_map)
    (hpos : ∀ v ∈ st.vma_map, 0 < v.size)
    (hap : AP st.vma_map st.page_table)
    (hcov : address_space_end ≤ coverEnd st.vma_map)
    (h : UnmapBuffer st gpu size = some (r, st2)) :
    ∀ a, gpu ≤ a → a < gpu + size → GpuToCpuAddress st2 a = none := by
  unfold UnmapBuffer at h
  split at h
  · rename_i halign
    simp only [] at h
    rcases hg : GpuToCpuAddress st gpu with _ | cg
    · rw [hg] at h
      exact Option.noConfusion h
    · rw [hg] at h
      simp only [] at h
      rcases hu : UnmapRange st.vma_map st.page_table gpu (alignUp size page_size)
          with _ | ⟨m2, pt2⟩
      · rw [hu] at h
        exact Option.noConfusion h
      · rw [hu] at h
        simp only [] at h
        have h2 := Option.some.inj h
        injection h2 with hr1 hr2
        subst hr2
        unfold UnmapRange at hu
        rcases hc : CarveVMARange st.vma_map gpu (alignUp size page_size) with _ | ⟨m1, i⟩
        · rw [hc] at hu
          exact Option.noConfusion hu
        · rw [hc] at hu
          simp only [] at hu
          rcases hl : unmapLoop (m1.length + 1) m1 st.page_table i
              (gpu + alignUp size page_size) with _ | ⟨m2l, pt2l⟩
          · rw [hl] at hu
            exact Option.noConfusion hu
          · rw [hl] at hu
            simp only [] at hu
            rcases hf : m2l[FindVMA m2l gpu]? with _ | vfin
            · rw [hf] at hu
              exact Option.noConfusion hu
            · rw [hf] at hu
              simp only [] at hu
              split at hu
              · have h3 := Option.some.inj hu
                injection h3 with hml hpl
                subst hml
                subst hpl
                obtain ⟨hch1, hpos1, hcov1, href1, ⟨vi, hvi, hvib⟩, halG, hsz⟩ :=
                  carveVMARange_facts _ _ _ m1 i hch hpos hc
                have hap1 : AP m1 st.page_table := AP_of_refines m1 _ _ href1 hap
                have hfr : frontierOf m1 i = vi.base := by
                  unfold frontierOf
                  rw [hvi]
                have hcovd0 : ∀ pg, gpu ≤ pg * page_size →
                    pg * page_size < frontierOf m1 i →
                    st.page_table.backing_addr pg = 0 := by
                  intro pg h1 h2
                  rw [hfr] at h2
                  omega
                have hzero := unmapLoop_backing gpu (m1.length + 1) m1 st.page_table i
                  (gpu + alignUp size page_size) m2l pt2l hl hch1 hpos1 hap1 hcovd0
                intro a ha1 ha2
                have hgd : gpu / page_size * page_size = gpu :=
                  Nat.div_mul_cancel (Nat.dvd_of_mod_eq_zero halign)
                have hd2 : gpu ≤ a / page_size * page_size := by
                  have hd1 : gpu / page_size ≤ a / page_size :=
                    Nat.div_le_div_right ha1
                  have := Nat.mul_le_mul_right page_size hd1
                  omega
                have hd3 : a / page_size * page_size ≤ a := Nat.div_mul_le_self a page_size
                have hnp : num_pages * page_size = address_space_end := by decide
                by_cases hlt : a < address_space_end
                · have hvalid : IsAddressValid a = true := by
                    show decide (a / page_size < num_pages) = true
                    refine decide_eq_true ?_
                    rw [Nat.div_lt_iff_lt_mul page_size_pos, hnp]
                    exact hlt
                  have hb : pt2l.backing_addr (a / page_size) = 0 := by
                    refine hzero (a / page_size) hd2 ?_ ?_
                    · have hle := le_alignUp size
                      omega
                    · rw [hcov1]
                      omega
                  unfold GpuToCpuAddress
                  rw [if_neg (by rw [hvalid]; exact not_not_intro rfl)]
                  show (if pt2l.backing_addr (a / page_size) ≠ 0 then _ else none) = none
                  rw [hb, if_neg (not_not_intro rfl)]
                · have hinvalid : IsAddressValid a = false := by
                    show decide (a / page_size < num_pages) = false
                    refine decide_eq_false ?_
                    rw [Nat.div_lt_iff_lt_mul page_size_pos, hnp]
                    omega
                  unfold GpuToCpuAddress
                  rw [if_pos (by rw [hinvalid]; exact Bool.false_ne_true)]
              · exact Option.noConfusion hu
  · exact Option.noConfusion h

/-- Concrete map for the C10 witness: a Mapped buffer over [0, 0x2000)
backed at CPU address 0x7000, then the free remainder. -/
def c10m : List VirtualMemoryArea :=
  [{ base := 0, size := 0x2000, ty := .Mapped, offset := 0,
     backing_memory := 0x100000, backing_addr := 0x7000 },
   { base := 0x2000, size := address_space_end - 0x2000 }]

/-- Page table matching `c10m`: the two mapped pages carry pointers and
backing addresses, everything else is clear. -/
def c10pt : PageTable :=
  ⟨fun pg => if pg < 2 then 0x100000 + pg * 0x1000 else 0,
   fun pg => if pg < 2 then .Memory else .Unmapped,
   fun pg => if pg < 2 then 0x7000 + pg * 0x1000 else 0⟩

/-- Concrete manager state for the C10 witness. -/
def c10st : MMState := ⟨c10m, c10pt, fun _ => 0, fun _ => 0⟩

/-- Witness for C10: unmapping [0, 0x1000) of the concrete state succeeds
and `GpuToCpuAddress` at 0x500 (previously 0x7500) returns none. -/
theorem unmapBuffer_gpuToCpuAddress_none_witness :
    ∃ p : Nat × MMState, UnmapBuffer c10st 0 0x1000 = some p ∧
      GpuToCpuAddress p.2 0x500 = none := by
  have hs : (UnmapBuffer c10st 0 0x1000).isSome = true := by decide
  have heq : UnmapBuffer c10st 0 0x1000 =
      some ((UnmapBuffer c10st 0 0x1000).get hs) := (Option.some_get hs).symm
  refine ⟨(UnmapBuffer c10st 0 0x1000).get hs, heq, ?_⟩
  have hch : List.Chain' Adj c10st.vma_map := chain'_of_chainB Adj c10m (by decide)
  have hap : AP c10st.vma_map c10st.page_table := by
    intro v hv hty
    exfalso
    rcases List.mem_cons.mp hv with heq1 | hv2
    · rw [heq1] at hty
      exact absurd hty (by decide)
    · rcases List.mem_cons.mp hv2 with heq2 | hv3
      · rw [heq2] at hty
        exact absurd hty (by decide)
      · simp at hv3
  exact unmapBuffer_gpuToCpuAddress_none c10st 0 0x1000 _ _ hch (by decide) hap
    (by decide) heq 0x500 (by decide) (by decide)

/-! ### Canonicality of the VMA map (claim C7) -/

/-- An adjacent pair the merge pass has settled: not mergeable. A map is
canonical when every adjacent pair satisfies this. -/
def CanFalse (a b : VirtualMemoryArea) : Prop := CanBeMergedWith a b = some false

instance (a b : VirtualMemoryArea) : Decidable (CanFalse a b) :=
  inferInstanceAs (Decidable (CanBeMergedWith a b = some false))

lemma canonAround_of_canon (m : List VirtualMemoryArea) (j : Nat)
    (h : List.Chain' CanFalse m) :
    List.Chain' CanFalse (m.take j) ∧ List.Chain' CanFalse (m.drop (j + 1)) := by
  constructor
  · have hsplit := List.take_append_drop j m
    rw [← hsplit] at h
    exact (List.chain'_append.mp h).1
  · have hsplit := List.take_append_drop (j + 1) m
    rw [← hsplit] at h
    exact (List.chain'_append.mp h).2.1

/-- `CanBeMergedWith a b` only looks at `a` through its end address, type,
offset-end and backing-memory-end. -/
lemma canBeMerged_congr_left (a a' b : VirtualMemoryArea)
    (hbase : a'.base + a'.size = a.base + a.size) (ht : a'.ty = a.ty)
    (ho : a.ty = .Allocated → a'.offset + a'.size = a.offset + a.size)
    (hm : a.ty = .Mapped → a'.backing_memory + a'.size = a.backing_memory + a.size) :
    CanBeMergedWith a' b = CanBeMergedWith a b := by
  unfold CanBeMergedWith
  rw [hbase, ht]
  cases hta : a.ty with
  | Unmapped => simp
  | Allocated =>
    rw [ho hta]
    simp
  | Mapped =>
    rw [hm hta]
    simp

/-- After a merge, the merged VMA behaves on its right like the absorbed
right half did. -/
lemma canBeMerged_merged_left (p w c : VirtualMemoryArea)
    (hpw : CanBeMergedWith p w = some true) :
    CanBeMergedWith (mergedVMA p w) c = CanBeMergedWith w c := by
  obtain ⟨hadj, hty, hoff, hbm⟩ := canBeMerged_true p w hpw
  refine canBeMerged_congr_left w (mergedVMA p w) c (mergedVMA_end p w hadj)
    ((mergedVMA_ty p w).trans hty) ?_ ?_
  · intro hA
    have := hoff (hty.trans hA)
    show p.offset + (p.size + w.size) = w.offset + w.size
    omega
  · intro hM
    have := hbm (hty.trans hM)
    show p.backing_memory + (p.size + w.size) = w.backing_memory + w.size
    omega

/-- After a merge, the merged VMA behaves on its left like the absorbing
left half did. -/
lemma canBeMerged_merged_right (q p w : VirtualMemoryArea) :
    CanBeMergedWith q (mergedVMA p w) = CanBeMergedWith q p := rfl

lemma splitRight_offset (X : VirtualMemoryArea) (off : Nat) (h : X.ty = .Allocated) :
    (splitRight X off).offset = X.offset + off := by
  unfold splitRight
  rw [h]

lemma splitRight_backing (X : VirtualMemoryArea) (off : Nat) (h : X.ty = .Mapped) :
    (splitRight X off).backing_memory = X.backing_memory + off := by
  unfold splitRight
  rw [h]

/-- The right half of a split behaves on its left like the whole VMA did. -/
lemma canBeMerged_splitRight_left (old : VirtualMemoryArea) (off : Nat)
    (hoff : off ≤ old.size) (c : VirtualMemoryArea) :
    CanBeMergedWith (splitRight old off) c = CanBeMergedWith old c := by
  refine canBeMerged_congr_left old (splitRight old off) c ?_ (splitRight_ty old off) ?_ ?_
  · rw [splitRight_base, splitRight_size]
    omega
  · intro hA
    rw [splitRight_offset old off hA, splitRight_size]
    omega
  · intro hM
    rw [splitRight_backing old off hM, splitRight_size]
    omega

lemma mergeNext_none (m : List VirtualMemoryArea) (j : Nat) (hmj : m[j]? = none) :
    mergeNext m j = some m := by
  unfold mergeNext
  rw [hmj]

lemma mergePrev_none (m : List VirtualMemoryArea) (j : Nat) (hmj : m[j]? = none) :
    mergePrev m j = some (m, j) := by
  unfold mergePrev
  by_cases hj0 : j = 0
  · rw [if_pos hj0]
  · rw [if_neg hj0, hmj]
    rcases hq : m[j - 1]? with _ | q <;> rfl

/-- `MergeAdjacent` restores canonicality when only the two pairs around
the marked element may be mergeable. -/
lemma mergeAdjacent_canon (A B : List VirtualMemoryArea) (v : VirtualMemoryArea)
    (m' : List VirtualMemoryArea) (i' : Nat)
    (hA : List.Chain' CanFalse A) (hB : List.Chain' CanFalse B)
    (h : MergeAdjacent (A ++ v :: B) A.length = some (m', i')) :
    List.Chain' CanFalse m' := by
  obtain ⟨w, C, hcase1, hcase2⟩ := mergeAdjacent_shape A B v m' i' h
  have hwCpack : List.Chain' CanFalse C ∧ (∀ c ∈ C.head?, CanFalse w c) := by
    rcases hcase1 with ⟨hweq, hceq, hnm⟩ | ⟨b, B2, hBeq, hcbm, hceq, hweq⟩
    · subst hweq
      have hceq2 := hceq.symm
      subst hceq2
      exact ⟨hB, fun c hc => hnm c hc⟩
    · subst hBeq
      have hceq2 := hceq.symm
      subst hceq2
      subst hweq
      constructor
      · exact (List.chain'_cons'.mp hB).2
      · intro c hc
        show CanBeMergedWith (mergedVMA v b) c = some false
        rw [canBeMerged_merged_left v b c hcbm]
        exact (List.chain'_cons'.mp hB).1 c hc
  obtain ⟨hC, hwC⟩ := hwCpack
  rcases hcase2 with ⟨hmeq, hieq, hpm⟩ | ⟨A2, p, hAeq, hcbm2, hmeq, hieq⟩
  · subst hmeq
    rw [List.chain'_append]
    refine ⟨hA, List.chain'_cons'.mpr ⟨hwC, hC⟩, ?_⟩
    intro x hx y hy
    simp only [List.head?_cons, Option.mem_def, Option.some.injEq] at hy
    subst hy
    exact hpm x hx
  · subst hAeq
    subst hmeq
    rw [List.chain'_append]
    refine ⟨(List.chain'_append.mp hA).1, List.chain'_cons'.mpr ⟨?_, hC⟩, ?_⟩
    · intro c hc
      show CanBeMergedWith (mergedVMA p w) c = some false
      rw [canBeMerged_merged_left p w c hcbm2]
      exact hwC c hc
    · intro x hx y hy
      simp only [List.head?_cons, Option.mem_def, Option.some.injEq] at hy
      subst hy
      show CanBeMergedWith x (mergedVMA p w) = some false
      rw [canBeMerged_merged_right x p w]
      exact (List.chain'_append.mp hA).2.2 x hx p rfl

/-- Replacing an element and running `MergeAdjacent` there restores full
canonicality when the rest of the map is canonical. -/
lemma setThenMerge_canon (m : List VirtualMemoryArea) (j : Nat)
    (x : VirtualMemoryArea) (m2 : List VirtualMemoryArea) (i2 : Nat)
    (hA : List.Chain' CanFalse (m.take j)) (hB : List.Chain' CanFalse (m.drop (j + 1)))
    (h : MergeAdjacent (m.set j x) j = some (m2, i2)) :
    List.Chain' CanFalse m2 := by
  rcases hmj : m[j]? with _ | y
  · have hlen : m.length ≤ j := List.getElem?_eq_none_iff.mp hmj
    rw [set_past_length m j x hlen] at h
    unfold MergeAdjacent at h
    rw [mergeNext_none m j hmj] at h
    simp only [] at h
    rw [mergePrev_none m j hmj] at h
    have h2 := Option.some.inj h
    injection h2 with hl hr
    subst hl
    rw [← List.take_of_length_le hlen]
    exact hA
  · obtain ⟨A, B, hdec, hAlen⟩ := list_decomp m j y hmj
    have htake : m.take j = A := by
      rw [hdec, ← hAlen]
      exact take_append_self A _
    have hdrop : m.drop (j + 1) = B := by
      rw [hdec, ← hAlen]
      exact drop_append_length A B y
    rw [htake] at hA
    rw [hdrop] at hB
    rw [hdec, ← hAlen, set_append_length] at h
    exact mergeAdjacent_canon A B x m2 i2 hA hB h

/-- `MergeAdjacent` preserves the chain, sizes and coverage. -/
lemma mergeAdjacent_geom (m : List VirtualMemoryArea) (j : Nat)
    (m2 : List VirtualMemoryArea) (i2 : Nat)
    (hch : List.Chain' Adj m) (hpos : ∀ v ∈ m, 0 < v.size)
    (h : MergeAdjacent m j = some (m2, i2)) :
    List.Chain' Adj m2 ∧ (∀ v ∈ m2, 0 < v.size) ∧ coverEnd m2 = coverEnd m := by
  rcases hmj : m[j]? with _ | y
  · unfold MergeAdjacent at h
    rw [mergeNext_none m j hmj] at h
    simp only [] at h
    rw [mergePrev_none m j hmj] at h
    have h2 := Option.some.inj h
    injection h2 with hl hr
    subst hl
    exact ⟨hch, hpos, rfl⟩
  · obtain ⟨A, B, hdec, hAlen⟩ := list_decomp m j y hmj
    rw [hdec, ← hAlen] at h
    obtain ⟨w, C, hcase1, hcase2⟩ := mergeAdjacent_shape A B y m2 i2 h
    have hymem : y ∈ m := by
      rw [hdec]
      simp
    have hmid : List.Chain' Adj (A ++ w :: C) ∧ 0 < w.size ∧ (∀ v ∈ C, v ∈ B) ∧
        coverEnd (A ++ w :: C) = coverEnd m := by
      rcases hcase1 with ⟨hweq, hceq, _⟩ | ⟨b, B2, hBeq, hcbm, hceq, hweq⟩
      · have hweq2 := hweq.symm
        subst hweq2
        have hceq2 := hceq.symm
        subst hceq2
        exact ⟨hdec ▸ hch, hpos y hymem, fun v hv => hv, by rw [hdec]⟩
      · subst hBeq
        have hceq2 := hceq.symm
        subst hceq2
        subst hweq
        obtain ⟨hadjb, _, _, _⟩ := canBeMerged_true y b hcbm
        have hbm2 : b ∈ m := by
          rw [hdec]
          simp
        refine ⟨?_, ?_, fun v hv => List.mem_cons_of_mem b hv, ?_⟩
        · exact chain_join2 A y b B2 _ (mergedVMA_base y b) (mergedVMA_end y b hadjb)
            (hdec ▸ hch)
        · rw [mergedVMA_size]
          have := hpos y hymem
          omega
        · rw [show coverEnd m = coverEnd ((A ++ [y]) ++ b :: B2) by rw [hdec]; simp]
          exact coverEnd_mid A (A ++ [y]) _ b B2 (mergedVMA_end y b hadjb)
    obtain ⟨hch3, hwpos, hCB, hcov3⟩ := hmid
    have hposmid : ∀ v ∈ A ++ w :: C, 0 < v.size := by
      intro v hv
      rcases List.mem_append.mp hv with hv | hv
      · exact hpos v (by rw [hdec]; simp [hv])
      · rcases List.mem_cons.mp hv with rfl | hv2
        · exact hwpos
        · exact hpos v (by rw [hdec]; simp [hCB v hv2])
    rcases hcase2 with ⟨hmeq, _, _⟩ | ⟨A2, p, hAeq, hcbm2, hmeq, _⟩
    · subst hmeq
      exact ⟨hch3, hposmid, hcov3⟩
    · subst hAeq
      subst hmeq
      obtain ⟨hadjp, _, _, _⟩ := canBeMerged_true p w hcbm2
      have hpmem : p ∈ A2 ++ [p] := by simp
      refine ⟨?_, ?_, ?_⟩
      · refine chain_join2 A2 p w C _ (mergedVMA_base p w) (mergedVMA_end p w hadjp) ?_
        rw [show A2 ++ p :: w :: C = (A2 ++ [p]) ++ w :: C by simp]
        exact hch3
      · intro v hv
        rcases List.mem_append.mp hv with hv | hv
        · exact hposmid v (by simp [hv])
        · rcases List.mem_cons.mp hv with rfl | hv2
          · rw [mergedVMA_size]
            have := hposmid p (by simp)
            omega
          · exact hposmid v (by simp [hv2])
      · rw [← hcov3]
        exact coverEnd_mid A2 (A2 ++ [p]) _ w C (mergedVMA_end p w hadjp)

lemma drop_append_length2 {α : Type} (A : List α) (x y : α) (C : List α) :
    (A ++ x :: y :: C).drop (A.length + 1 + 1) = C := by
  induction A with
  | nil => rfl
  | cons a A ih => simpa using ih

/-- Eliminator for a successful `CarveVMA` on a canonical map: the carved
map keeps the chain and sizes, and stays canonical everywhere except at
the two pairs around the returned index (the split seams). -/
lemma carveVMA_facts (m : List VirtualMemoryArea) (base size : Nat)
    (m1 : List VirtualMemoryArea) (j : Nat)
    (hch : List.Chain' Adj m) (hpos : ∀ v ∈ m, 0 < v.size)
    (hcanon : List.Chain' CanFalse m)
    (h : CarveVMA m base size = some (m1, j)) :
    List.Chain' Adj m1 ∧ (∀ v ∈ m1, 0 < v.size) ∧
      List.Chain' CanFalse (m1.take j) ∧ List.Chain' CanFalse (m1.drop (j + 1)) := by
  unfold CarveVMA at h
  simp only [] at h
  split at h
  · split at h
    · exact Option.noConfusion h
    · rcases hv : m[FindVMA m base]? with _ | vma
      · rw [hv] at h
        exact Option.noConfusion h
      · rw [hv] at h
        simp only [] at h
        split at h
        · have h2 := Option.some.inj h
          injection h2 with hl hr
          subst hl
          subst hr
          exact ⟨hch, hpos, (canonAround_of_canon m _ hcanon).1,
            (canonAround_of_canon m _ hcanon).2⟩
        · split at h
          · by_cases hlt : base - vma.base + size < vma.size
            · rw [if_pos hlt] at h
              rcases hspE : SplitVMA m (FindVMA m base) (base - vma.base + size)
                  with _ | ⟨mE, jE⟩
              · rw [hspE] at h
                simp only [Option.map_none'] at h
                exact Option.noConfusion h
              · rw [hspE] at h
                simp only [Option.map_some'] at h
                obtain ⟨hchE, hposE, _, _⟩ :=
                  splitVMA_preserves m (FindVMA m base) _ mE jE hch hpos hspE
                obtain ⟨A, old, B, hdec, hAlen, hoffE, hltE, _, hmE, _⟩ :=
                  splitVMA_shape m (FindVMA m base) _ mE jE hspE
                have hold : old = vma := by
                  rw [← hAlen, hdec, getElem?_append_length] at hv
                  exact Option.some.inj hv
                subst hold
                have hcanon2 : List.Chain' CanFalse (A ++ old :: B) := hdec ▸ hcanon
                have hcA : List.Chain' CanFalse A := (List.chain'_append.mp hcanon2).1
                have hlastA : ∀ q ∈ A.getLast?, CanFalse q old :=
                  fun q hq => (List.chain'_append.mp hcanon2).2.2 q hq old rfl
                have holdB : List.Chain' CanFalse (old :: B) :=
                  (List.chain'_append.mp hcanon2).2.1
                have hr1head : ∀ c ∈ B.head?,
                    CanFalse (splitRight old (base - old.base + size)) c := by
                  intro c hc
                  show CanBeMergedWith _ c = some false
                  rw [canBeMerged_splitRight_left old _ (by omega) c]
                  exact (List.chain'_cons'.mp holdB).1 c hc
                by_cases hsz : base - old.base ≠ 0
                · rw [if_pos hsz] at h
                  obtain ⟨hch1, hpos1, _, _⟩ :=
                    splitVMA_preserves mE (FindVMA m base) _ m1 j hchE hposE h
                  obtain ⟨A2, old2, B2, hdec2, hAlen2, hoffS, hltS, _, hm1, hj⟩ :=
                    splitVMA_shape mE (FindVMA m base) _ m1 j h
                  have happ : A2 ++ old2 :: B2 =
                      A ++ { old with size := base - old.base + size } ::
                        splitRight old (base - old.base + size) :: B := by
                    rw [← hdec2]
                    exact hmE
                  have hlen2 : A2.length = A.length := by
                    rw [hAlen2, hAlen]
                  obtain ⟨hAA, hrest⟩ := List.append_inj happ hlen2
                  have hAA2 := hAA.symm
                  subst hAA2
                  injection hrest with hoeq hBeq
                  subst hoeq
                  subst hBeq
                  refine ⟨hch1, hpos1, ?_, ?_⟩
                  · rw [hm1, hj, ← hAlen2, take_append_length]
                    rw [List.chain'_append]
                    refine ⟨hcA, List.chain'_singleton _, ?_⟩
                    intro q hq y hy
                    simp only [List.head?_cons, Option.mem_def, Option.some.injEq] at hy
                    subst hy
                    show CanBeMergedWith q old = some false
                    exact hlastA q hq
                  · rw [hm1, hj, ← hAlen2, drop_append_length2]
                    exact List.chain'_cons'.mpr ⟨hr1head, (List.chain'_cons'.mp holdB).2⟩
                · rw [if_neg hsz] at h
                  have h2 := Option.some.inj h
                  injection h2 with hl hr
                  subst hl
                  subst hr
                  refine ⟨hchE, hposE, ?_, ?_⟩
                  · rw [hmE, ← hAlen, take_append_self]
                    exact hcA
                  · rw [hmE, ← hAlen, drop_append_length]
                    exact List.chain'_cons'.mpr ⟨hr1head, (List.chain'_cons'.mp holdB).2⟩
            · rw [if_neg hlt] at h
              simp only [] at h
              by_cases hsz : base - vma.base ≠ 0
              · rw [if_pos hsz] at h
                obtain ⟨hch1, hpos1, _, _⟩ :=
                  splitVMA_preserves m (FindVMA m base) _ m1 j hch hpos h
                obtain ⟨A, old, B, hdec, hAlen, hoffS, hltS, _, hm1, hj⟩ :=
                  splitVMA_shape m (FindVMA m base) _ m1 j h
                have hold : old = vma := by
                  rw [← hAlen, hdec, getElem?_append_length] at hv
                  exact Option.some.inj hv
                subst hold
                have hcanon2 : List.Chain' CanFalse (A ++ old :: B) := hdec ▸ hcanon
                refine ⟨hch1, hpos1, ?_, ?_⟩
                · rw [hm1, hj, ← hAlen, take_append_length]
                  rw [List.chain'_append]
                  refine ⟨(List.chain'_append.mp hcanon2).1, List.chain'_singleton _, ?_⟩
                  intro q hq y hy
                  simp only [List.head?_cons, Option.mem_def, Option.some.injEq] at hy
                  subst hy
                  show CanBeMergedWith q old = some false
                  exact (List.chain'_append.mp hcanon2).2.2 q hq old rfl
                · rw [hm1, hj, ← hAlen, drop_append_length2]
                  exact (List.chain'_cons'.mp (List.chain'_append.mp hcanon2).2.1).2
              · rw [if_neg hsz] at h
                have h2 := Option.some.inj h
                injection h2 with hl hr
                subst hl
                subst hr
                exact ⟨hch, hpos, (canonAround_of_canon m _ hcanon).1,
                  (canonAround_of_canon m _ hcanon).2⟩
          · exact Option.noConfusion h
  · exact Option.noConfusion h

/-- `AllocateMemory` keeps the map contiguous, positive-sized and
canonical: the carve only unsettles the two pairs around the carved
entry, and the final `MergeAdjacent` settles them again. -/
lemma allocateMemory_canon (m : List VirtualMemoryArea) (pt : PageTable)
    (target offset size : Nat)
    (m2 : List VirtualMemoryArea) (pt2 : PageTable) (i2 : Nat)
    (hch : List.Chain' Adj m) (hpos : ∀ v ∈ m, 0 < v.size)
    (hcanon : List.Chain' CanFalse m)
    (h : AllocateMemory m pt target offset size = some (m2, pt2, i2)) :
    List.Chain' Adj m2 ∧ (∀ v ∈ m2, 0 < v.size) ∧ List.Chain' CanFalse m2 := by
  unfold AllocateMemory at h
  rcases hc : CarveVMA m target size with _ | ⟨m1, j⟩
  · rw [hc] at h
    exact Option.noConfusion h
  · rw [hc] at h
    simp only [] at h
    rcases hv : m1[j]? with _ | vma
    · rw [hv] at h
      exact Option.noConfusion h
    · rw [hv] at h
      simp only [] at h
      split at h
      · obtain ⟨hch1, hpos1, hcA, hcB⟩ :=
          carveVMA_facts m target size m1 j hch hpos hcanon hc
        obtain ⟨A, B, hdec, hAlen⟩ := list_decomp m1 j vma hv
        have hset : ∀ y, (m1.set j y) = A ++ y :: B := by
          intro y
          rw [hdec, ← hAlen, set_append_length]
        have hposAB : ∀ y : VirtualMemoryArea, y.size = vma.size →
            ∀ v ∈ A ++ y :: B, 0 < v.size := by
          intro y hy v hv2
          rcases List.mem_append.mp hv2 with hv2 | hv2
          · exact hpos1 v (by rw [hdec]; simp [hv2])
          · rcases List.mem_cons.mp hv2 with rfl | hv2
            · rw [hy]
              exact hpos1 vma (by rw [hdec]; simp)
            · exact hpos1 v (by rw [hdec]; simp [hv2])
        obtain ⟨vma2, hv2, hupd, hmerge⟩ := allocate_elim _ pt j m2 pt2 i2 h
        have hvx : vma2 = { vma with offset := offset } := by
          rw [hset, ← hAlen, getElem?_append_length] at hv2
          exact (Option.some.inj hv2).symm
        subst hvx
        have hset2 : (m1.set j { vma with offset := offset }).set j
            { { vma with offset := offset } with
              ty := .Allocated, backing_addr := 0, backing_memory := 0 } =
            A ++ { { vma with offset := offset } with
              ty := .Allocated, backing_addr := 0, backing_memory := 0 } :: B := by
          rw [hset, ← hAlen, set_append_length]
        have hch3 : List.Chain' Adj ((m1.set j { vma with offset := offset }).set j
            { { vma with offset := offset } with
              ty := .Allocated, backing_addr := 0, backing_memory := 0 }) := by
          rw [hset2]
          exact chain_set_same A B vma _ rfl rfl (hdec ▸ hch1)
        have hpos3 : ∀ v ∈ (m1.set j { vma with offset := offset }).set j
            { { vma with offset := offset } with
              ty := .Allocated, backing_addr := 0, backing_memory := 0 }, 0 < v.size := by
          rw [hset2]
          exact hposAB _ rfl
        obtain ⟨hchF, hposF, _⟩ := mergeAdjacent_geom _ j m2 i2 hch3 hpos3 hmerge
        have hcA2 : List.Chain' CanFalse
            ((m1.set j { vma with offset := offset }).take j) := by
          rw [take_set]
          exact hcA
        have hcB2 : List.Chain' CanFalse
            ((m1.set j { vma with offset := offset }).drop (j + 1)) := by
          rw [drop_set]
          exact hcB
        exact ⟨hchF, hposF,
          setThenMerge_canon (m1.set j { vma with offset := offset }) j _ m2 i2
            hcA2 hcB2 hmerge⟩
      · exact Option.noConfusion h

/-- `MapBackingMemory` keeps the map contiguous, positive-sized and
canonical, for the same reason as `AllocateMemory`. -/
lemma mapBackingMemory_canon (m : List VirtualMemoryArea) (pt : PageTable)
    (target memory size backing : Nat)
    (m2 : List VirtualMemoryArea) (pt2 : PageTable) (i2 : Nat)
    (hch : List.Chain' Adj m) (hpos : ∀ v ∈ m, 0 < v.size)
    (hcanon : List.Chain' CanFalse m)
    (h : MapBackingMemory m pt target memory size backing = some (m2, pt2, i2)) :
    List.Chain' Adj m2 ∧ (∀ v ∈ m2, 0 < v.size) ∧ List.Chain' CanFalse m2 := by
  unfold MapBackingMemory at h
  rcases hc : CarveVMA m target size with _ | ⟨m1, j⟩
  · rw [hc] at h
    exact Option.noConfusion h
  · rw [hc] at h
    simp only [] at h
    rcases hv : m1[j]? with _ | vma
    · rw [hv] at h
      exact Option.noConfusion h
    · rw [hv] at h
      simp only [] at h
      split at h
      · rcases hu : UpdatePageTableForVMA pt
            { vma with ty := .Mapped, backing_memory := memory, backing_addr := backing }
            with _ | ptU
        · rw [hu] at h
          exact Option.noConfusion h
        · rw [hu] at h
          simp only [] at h
          rcases hg : MergeAdjacent
              (m1.set j { vma with ty := .Mapped, backing_memory := memory, backing_addr := backing })
              j with _ | ⟨mF, iF⟩
          · rw [hg] at h
            exact Option.noConfusion h
          · rw [hg] at h
            simp only [] at h
            have h2 := Option.some.inj h
            injection h2 with hl hr
            injection hr with hr1 hr2
            subst hl
            obtain ⟨hch1, hpos1, hcA, hcB⟩ :=
              carveVMA_facts m target size m1 j hch hpos hcanon hc
            obtain ⟨A, B, hdec, hAlen⟩ := list_decomp m1 j vma hv
            have hset : m1.set j { vma with ty := .Mapped, backing_memory := memory, backing_addr := backing } =
                A ++ { vma with ty := .Mapped, backing_memory := memory, backing_addr := backing } :: B := by
              rw [hdec, ← hAlen, set_append_length]
            have hch3 : List.Chain' Adj
                (m1.set j { vma with ty := .Mapped, backing_memory := memory, backing_addr := backing }) := by
              rw [hset]
              exact chain_set_same A B vma _ rfl rfl (hdec ▸ hch1)
            have hpos3 : ∀ v ∈ m1.set j { vma with ty := .Mapped, backing_memory := memory, backing_addr := backing },
                0 < v.size := by
              rw [hset]
              intro v hv2
              rcases List.mem_append.mp hv2 with hv2 | hv2
              · exact hpos1 v (by rw [hdec]; simp [hv2])
              · rcases List.mem_cons.mp hv2 with rfl | hv2
                · exact hpos1 vma (by rw [hdec]; simp)
                · exact hpos1 v (by rw [hdec]; simp [hv2])
            obtain ⟨hchF, hposF, _⟩ := mergeAdjacent_geom _ j mF iF hch3 hpos3 hg
            have hcA2 : List.Chain' CanFalse ((m1.take j)) := hcA
            exact ⟨hchF, hposF,
              setThenMerge_canon m1 j _ mF iF
                (by exact hcA) (by exact hcB) hg⟩
      · exact Option.noConfusion h

/-- The public mutating operations other than `UnmapBuffer`. -/
def opOk : MMOp → Bool
  | .unmapBuffer _ _ => false
  | _ => true

lemma chainB_of_chain' (r : VirtualMemoryArea → VirtualMemoryArea → Prop)
    [DecidableRel r] :
    ∀ l, List.Chain' r l → chainB r l = true
  | [] => fun _ => rfl
  | [_] => fun _ => rfl
  | a :: b :: t => fun h => by
    unfold chainB
    rw [Bool.and_eq_true]
    exact ⟨decide_eq_true (List.chain'_cons.mp h).1,
      chainB_of_chain' r (b :: t) (List.chain'_cons.mp h).2⟩

/-- One public operation other than `UnmapBuffer` keeps the map
contiguous, positive-sized and canonical. -/
lemma applyOp_canon (st st2 : MMState) (op : MMOp)
    (hch : List.Chain' Adj st.vma_map) (hpos : ∀ v ∈ st.vma_map, 0 < v.size)
    (hcanon : List.Chain' CanFalse st.vma_map)
    (hok : opOk op = true)
    (h : applyOp st op = some st2) :
    List.Chain' Adj st2.vma_map ∧ (∀ v ∈ st2.vma_map, 0 < v.size) ∧
      List.Chain' CanFalse st2.vma_map := by
  cases op with
  | allocateSpace size =>
    simp only [applyOp] at h
    unfold AllocateSpace at h
    simp only [] at h
    rcases ha : AllocateMemory st.vma_map st.page_table
        (FindFreeRegion st.vma_map address_space_base (alignUp size page_size)) 0
        (alignUp size page_size) with _ | ⟨mr, ptr2, ir⟩
    · rw [ha] at h
      exact Option.noConfusion h
    · rw [ha] at h
      simp only [] at h
      have h2 := Option.some.inj h
      subst h2
      exact allocateMemory_canon st.vma_map st.page_table _ 0 _ mr ptr2 ir
        hch hpos hcanon ha
  | allocateSpaceAt gpu_addr size =>
    simp only [applyOp] at h
    unfold AllocateSpaceAt at h
    simp only [] at h
    rcases ha : AllocateMemory st.vma_map st.page_table gpu_addr 0
        (alignUp size page_size) with _ | ⟨mr, ptr2, ir⟩
    · rw [ha] at h
      exact Option.noConfusion h
    · rw [ha] at h
      simp only [] at h
      have h2 := Option.some.inj h
      subst h2
      exact allocateMemory_canon st.vma_map st.page_table _ 0 _ mr ptr2 ir
        hch hpos hcanon ha
  | mapBufferEx cpu_addr size =>
    simp only [applyOp] at h
    unfold MapBufferEx at h
    simp only [] at h
    rcases ha : MapBackingMemory st.vma_map st.page_table
        (FindFreeRegion st.vma_map address_space_base (alignUp size page_size))
        (st.busPtr cpu_addr) (alignUp size page_size) cpu_addr with _ | ⟨mr, ptr2, ir⟩
    · rw [ha] at h
      exact Option.noConfusion h
    · rw [ha] at h
      simp only [] at h
      have h2 := Option.some.inj h
      subst h2
      exact mapBackingMemory_canon st.vma_map st.page_table _ _ _ _ mr ptr2 ir
        hch hpos hcanon ha
  | mapBufferExAt cpu_addr gpu_addr size =>
    simp only [applyOp] at h
    unfold MapBufferExAt at h
    split at h
    · simp only [] at h
      rcases ha : MapBackingMemory st.vma_map st.page_table gpu_addr
          (st.busPtr cpu_addr) (alignUp size page_size) cpu_addr with _ | ⟨mr, ptr2, ir⟩
      · rw [ha] at h
        exact Option.noConfusion h
      · rw [ha] at h
        simp only [] at h
        have h2 := Option.some.inj h
        subst h2
        exact mapBackingMemory_canon st.vma_map st.page_table _ _ _ _ mr ptr2 ir
          hch hpos hcanon ha
    · exact Option.noConfusion h
  | unmapBuffer gpu_addr size => exact Bool.noConfusion hok

/-- C7: [corrected] after any sequence of the public mutating operations
that does not include UnmapBuffer, the VMA map is canonical: no two
adjacent VMAs satisfy CanBeMergedWith. (UnmapBuffer can break this; see
the counterexample.) -/
theorem runOps_no_unmapBuffer_canonical
    (ops : List MMOp) (st st2 : MMState)
    (hch : List.Chain' Adj st.vma_map) (hpos : ∀ v ∈ st.vma_map, 0 < v.size)
    (hcanon : List.Chain' CanFalse st.vma_map)
    (hops : ∀ op ∈ ops, opOk op = true)
    (h : runOps st ops = some st2) :
    List.Chain' CanFalse st2.vma_map := by
  induction ops generalizing st with
  | nil =>
    unfold runOps at h
    have h2 := Option.some.inj h
    subst h2
    exact hcanon
  | cons op ops ih =>
    unfold runOps at h
    rcases hap : applyOp st op with _ | stM
    · rw [hap] at h
      exact Option.noConfusion h
    · rw [hap] at h
      simp only [] at h
      obtain ⟨h1, h2, h3⟩ := applyOp_canon st stM op hch hpos hcanon
        (hops op (List.mem_cons_self op ops)) hap
      exact ih stM h1 h2 h3 (fun o ho => hops o (List.mem_cons_of_mem op ho)) h

/-- The trace refuting the original C7: allocate 3 pages, map the first,
then unmap the first two. -/
def c7trace : List MMOp :=
  [.allocateSpaceAt 0 0x3000, .mapBufferExAt 0x10000 0 0x1000, .unmapBuffer 0 0x2000]

/-- The UnmapBuffer-free prefix used by the C7 witness. -/
def c7traceOk : List MMOp :=
  [.allocateSpaceAt 0 0x3000, .mapBufferExAt 0x10000 0 0x1000]

/-- The first two VMAs left by `c7trace`. -/
def c7a : VirtualMemoryArea := ⟨0, 0x2000, .Allocated, 0, 0, 0⟩

def c7b : VirtualMemoryArea := ⟨0x2000, 0x1000, .Allocated, 0x2000, 0, 0⟩

/-- C7: counterexample — after an UnmapBuffer the map can hold two
adjacent `Allocated` VMAs that satisfy CanBeMergedWith, because the unmap
loop's merge never revisits the pair at the end-split seam. -/
theorem unmapBuffer_breaks_canonical_map :
    ∃ st : MMState, runOps probe c7trace = some st ∧
      ∃ a b, st.vma_map[0]? = some a ∧ st.vma_map[1]? = some b ∧
        CanBeMergedWith a b = some true ∧ ¬ List.Chain' CanFalse st.vma_map := by
  have hs : (runOps probe c7trace).isSome = true := by decide
  have hsome : runOps probe c7trace = some ((runOps probe c7trace).getD probe) := by
    rcases ho : runOps probe c7trace with _ | st0
    · rw [ho] at hs
      exact Bool.noConfusion hs
    · rfl
  refine ⟨(runOps probe c7trace).getD probe, hsome, c7a, c7b, ?_, ?_, ?_, ?_⟩
  · decide
  · decide
  · decide
  · intro hchain
    exact absurd (chainB_of_chain' CanFalse _ hchain) (by decide)

/-- Witness for the corrected C7: the UnmapBuffer-free prefix leaves the
map canonical. -/
theorem runOps_no_unmapBuffer_canonical_witness :
    ∃ st : MMState, runOps probe c7traceOk = some st ∧
      List.Chain' CanFalse st.vma_map := by
  have hs : (runOps probe c7traceOk).isSome = true := by decide
  refine ⟨(runOps probe c7traceOk).get hs, (Option.some_get hs).symm, ?_⟩
  refine runOps_no_unmapBuffer_canonical c7traceOk probe _ ?_ (by decide) ?_ (by decide)
    (Option.some_get hs).symm
  · exact chain'_of_chainB Adj probe.vma_map (by decide)
  · exact chain'_of_chainB CanFalse probe.vma_map (by decide)

end Tegra

